import Mathlib

/-!
Shallow embedding of the `clean-extract` archive-normalization utility.

Go strings are modelled as `List Char` (the repo only ever lowercases ASCII
letters, so ASCII case mapping suffices for the functions embedded here).
File-system paths are modelled as a list of directory components plus a file
name; the file system itself is a list of files, each carrying an immutable
identifier `fid` so that a file can be tracked through relocations.

Functions are translated from:
  * `src/unnamed/part_000` — `getFilePriority`, `contains`, `isKeepExtension`,
    `cleanDirectory`, `dirExistsAndHasContent`, `moveToRemove`;
  * `src/archive.go` — `processArchive` (control flow);
  * `src/encoding.go` — `decodeChineseFilename`, `containsGarbled`.
-/

/-- Conversion from Lean string literals to the `List Char` model of Go strings. -/
def gs (s : String) : List Char := s.data

/-- Models Go `strings.ToLower` (ASCII case mapping; the repository only
compares ASCII extension strings). -/
def goToLower (s : List Char) : List Char := s.map Char.toLower

/-- Models Go `strings.TrimPrefix`: drops `pre` if it is a prefix, else identity. -/
def trimPrefixG (s pre : List Char) : List Char :=
  if pre.isPrefixOf s then s.drop pre.length else s

/-- Models Go `strings.TrimSuffix`: drops `suf` if it is a suffix, else identity. -/
def trimSuffixG (s suf : List Char) : List Char :=
  if suf.isSuffixOf s then s.take (s.length - suf.length) else s

/-- Models Go `path/filepath.Ext` on a single path element: the suffix starting
at the final dot, `[]` when there is no dot. -/
def goExt (name : List Char) : List Char :=
  if '.' ∈ name then '.' :: ((name.reverse.takeWhile (fun c => c ≠ '.')).reverse)
  else []

/-- Configuration loaded from `config.toml` (`Config` in `src/unnamed/part_003`). -/
structure GoConfig where
  KeepExtensions : List (List Char)
  Priority : List (List Char)
deriving DecidableEq, Repr

/-- `getFilePriority` from `src/unnamed/part_000`: lowercase the extension and
scan `config.Priority`, comparing each entry with a dot prepended; the index of
the first match is the rank, `len(Priority)` when none matches. -/
def getFilePriority (cfg : GoConfig) (ext : List Char) : Nat :=
  let e := goToLower ext
  match cfg.Priority.findIdx? (fun p => '.' :: p = e) with
  | some i => i
  | none => cfg.Priority.length

/-- `contains` from `src/unnamed/part_000`: membership scan over a string slice. -/
def containsG (slice : List (List Char)) (item : List Char) : Bool :=
  slice.any (fun s => s = item)

/-- `isKeepExtension` from `src/unnamed/part_000`: strip one leading dot,
lowercase, and test membership in `config.KeepExtensions`. -/
def isKeepExtension (cfg : GoConfig) (ext : List Char) : Bool :=
  containsG cfg.KeepExtensions (goToLower (trimPrefixG ext (gs ".")))

example : getFilePriority ⟨[gs "pdf", gs "txt"], [gs "pdf", gs "txt"]⟩ (gs ".txt") = 1 := by decide
example : getFilePriority ⟨[], [gs "pdf"]⟩ (gs ".doc") = 1 := by decide
example : getFilePriority ⟨[], [gs "pdf"]⟩ (gs ".PDF") = 0 := by decide
example : isKeepExtension ⟨[gs "pdf"], []⟩ (gs ".PDF") = true := by decide
example : isKeepExtension ⟨[gs "Pdf"], []⟩ (gs ".pdf") = false := by decide
example : goExt (gs "a.b.c") = gs ".c" := by decide
example : goExt (gs "abc") = gs "" := by decide
example : goExt (gs ".gitignore") = gs ".gitignore" := by decide

/-- A file-system path: directory components plus the file's base name.
`path/filepath` functions map onto the fields: `Dir` is `dir`, `Base` is
`name`, `Ext` is `goExt name`. -/
structure FPath where
  dir : List (List Char)
  name : List Char
deriving DecidableEq, Repr

/-- A regular file: an immutable identity `fid` (used to track a file across
renames) and its current path. -/
structure FileEntry where
  fid : Nat
  path : FPath
deriving DecidableEq, Repr

/-- The file system: the list of regular files, in `filepath.Walk` enumeration
order. Directories are implicit (they are never read by the cleaner except for
the empty-directory pass, which does not touch files). -/
abbrev FS := List FileEntry

/-- The `.remove` directory component. -/
def removeComp : List Char := gs ".remove"

/-- Paths currently present in the file system. -/
def fsPaths (fs : FS) : List FPath := fs.map (fun e => e.path)

/-- Models the `os.Stat(destPath)` existence probe of `moveToRemove`. -/
def occupied (fs : FS) (q : FPath) : Bool := fs.any (fun e => e.path = q)

/-- Auxiliary for `natChars`: most-significant-first decimal digits of `n`,
with structural fuel so that the kernel can evaluate it. -/
def natCharsAux : Nat → Nat → List Char
  | _, 0 => []
  | 0, _ + 1 => []
  | fuel + 1, n + 1 =>
    natCharsAux fuel ((n + 1) / 10) ++ [Char.ofNat (48 + (n + 1) % 10)]

/-- Decimal rendering of a counter, as produced by `fmt.Sprintf("%d", k)`. -/
def natChars (n : Nat) : List Char :=
  if n = 0 then ['0'] else natCharsAux n n

theorem natCharsAux_eq :
    ∀ (n fuel : Nat), n ≤ fuel →
      natCharsAux fuel n =
        ((Nat.digits 10 n).map (fun d => Char.ofNat (48 + d))).reverse := by
  intro n
  induction n using Nat.strong_induction_on with
  | _ n ih =>
    intro fuel hle
    match n, fuel with
    | 0, fuel => simp [natCharsAux]
    | m + 1, 0 => omega
    | m + 1, fu + 1 =>
      show natCharsAux fu ((m + 1) / 10) ++ [Char.ofNat (48 + (m + 1) % 10)] = _
      have hdiv : (m + 1) / 10 < m + 1 := Nat.div_lt_self (Nat.succ_pos m) (by norm_num)
      rw [ih ((m + 1) / 10) hdiv fu (by omega)]
      rw [Nat.digits_def' (by norm_num : (1 : Nat) < 10) (Nat.succ_pos m)]
      simp

theorem natChars_eq (n : Nat) :
    natChars n =
      if n = 0 then ['0']
      else ((Nat.digits 10 n).map (fun d => Char.ofNat (48 + d))).reverse := by
  unfold natChars
  by_cases h : n = 0
  · rw [if_pos h, if_pos h]
  · rw [if_neg h, if_neg h]
    exact natCharsAux_eq n n (Nat.le_refl n)

/-- The `k`-th destination name probed by `moveToRemove`: the base name itself
for `k = 0`, and `name_k.ext` (suffix inserted before the extension) for
`k ≥ 1`. -/
def candName (baseName : List Char) (k : Nat) : List Char :=
  match k with
  | 0 => baseName
  | _ + 1 =>
    let ext := goExt baseName
    let stem := trimSuffixG baseName ext
    stem ++ '_' :: natChars k ++ ext

/-- The collision-probing loop of `moveToRemove`: try `candName k`,
`candName (k+1)`, … until a free name is found. The Go loop is unbounded; the
model carries fuel, and `fs.length + 1` candidates always suffice because the
candidates are pairwise distinct paths (`probe_fresh` below). -/
def probeLoop (fs : FS) (rdir : List (List Char)) (baseName : List Char) :
    Nat → Nat → List Char
  | k, 0 => candName baseName k
  | k, fuel + 1 =>
    if occupied fs ⟨rdir, candName baseName k⟩ then
      probeLoop fs rdir baseName (k + 1) fuel
    else candName baseName k

/-- The destination name chosen by `moveToRemove` for a file named `baseName`
relocated into the directory `rdir`. -/
def probe (fs : FS) (rdir : List (List Char)) (baseName : List Char) : List Char :=
  probeLoop fs rdir baseName 0 (fs.length + 1)

/-- `moveToRemove` from `src/unnamed/part_000`: move the file at `p` into the
`.remove` subdirectory of its parent, appending `_1`, `_2`, … before the
extension until the destination name is free. `MkdirAll` always succeeds in
the model; a failed `os.Rename` (no file at `p`) leaves the state unchanged,
as in the code (the error is only logged). -/
def moveToRemove (fs : FS) (p : FPath) : FS :=
  let rdir := p.dir ++ [removeComp]
  let destName := probe fs rdir p.name
  fs.map (fun e => if e.path = p then { e with path := ⟨rdir, destName⟩ } else e)

/-- Extension priority of a path, as used by the sorting step of
`cleanDirectory` (`getFilePriority(filepath.Ext(files[i]))`). -/
def pri (cfg : GoConfig) (p : FPath) : Nat := getFilePriority cfg (goExt p.name)

/-- One comparison/swap of the double loop in `cleanDirectory`'s priority
sort: swap positions `i` and `j` when the priority at `i` is strictly
greater. -/
def swapIfGt (cfg : GoConfig) (l : List FPath) (i j : Nat) : List FPath :=
  match l.get? i, l.get? j with
  | some a, some b => if pri cfg a > pri cfg b then (l.set i b).set j a else l
  | _, _ => l

/-- The inner loop (`for j := i+1; j < len(files); j++`). -/
def innerLoop (cfg : GoConfig) (i : Nat) (l : List FPath) : List FPath :=
  (List.range' (i + 1) (l.length - (i + 1))).foldl
    (fun acc j => swapIfGt cfg acc i j) l

/-- The in-place exchange sort of `cleanDirectory` step 4
(`for i := 0; i < len(files)-1; i++ { for j := i+1; … } }`). -/
def prioSort (cfg : GoConfig) (l : List FPath) : List FPath :=
  (List.range (l.length - 1)).foldl (fun acc i => innerLoop cfg i acc) l

/-- Grouping key of a keep-eligible file: containing directory plus base name
without extension (`filepath.Join(dir, baseName)` in the code). -/
def groupKey (p : FPath) : FPath :=
  ⟨p.dir, trimSuffixG p.name (goExt p.name)⟩

/-- Whether `cleanDirectory` classifies the file at `p` as keep-eligible
(`isKeepExtension(strings.ToLower(filepath.Ext(p)))`). -/
def keepEligible (cfg : GoConfig) (p : FPath) : Bool :=
  isKeepExtension cfg (goToLower (goExt p.name))

/-- Append a keep-eligible file to its group, creating the group at the end of
the association list on first sight. Insertion order models Go map-key
first-insertion order (the Go map iteration order is unspecified; the model
fixes it to insertion order). -/
def addToGroups (groups : List (FPath × List FPath)) (k : FPath) (p : FPath) :
    List (FPath × List FPath) :=
  match groups with
  | [] => [(k, [p])]
  | (k', ps) :: rest =>
    if k' = k then (k', ps ++ [p]) :: rest
    else (k', ps) :: addToGroups rest k p

/-- Step 1 of `cleanDirectory`: group the keep-eligible files by
`(directory, base name)`. -/
def buildGroups (cfg : GoConfig) (paths : List FPath) : List (FPath × List FPath) :=
  paths.foldl
    (fun groups p =>
      if keepEligible cfg p then addToGroups groups (groupKey p) p else groups)
    []

/-- Step 2 of `cleanDirectory` for one group: a singleton group is marked
processed untouched; a larger group is priority-sorted, every member is marked
processed, and every member but the first is relocated. -/
def processGroup (cfg : GoConfig) (acc : List FPath × FS) (g : FPath × List FPath) :
    List FPath × FS :=
  match g.2 with
  | [] => acc
  | [f] => (acc.1 ++ [f], acc.2)
  | f₀ :: f₁ :: fr =>
    match prioSort cfg (f₀ :: f₁ :: fr) with
    | [] => acc
    | keep :: rest =>
      (acc.1 ++ keep :: rest, rest.foldl (fun s q => moveToRemove s q) acc.2)

/-- `ProcessStats` from `src/unnamed/part_003` (the `ErrorMsg` field is always
empty on the `cleanDirectory` path and is omitted). `KeptFiles` is
`len(allFiles) - nonKeepCount`, which is provably non-negative, so `Nat`
subtraction agrees with the Go `int` subtraction. -/
structure ProcessStats where
  TotalFiles : Nat
  KeptFiles : Nat
  RemovedFiles : Nat
  Success : Bool
deriving DecidableEq, Repr

/-- `cleanDirectory` from `src/unnamed/part_000`, on the file system restricted
to the tree under the cleaned root. The input list order is the
`filepath.Walk` enumeration order. The empty-directory deletion pass is not
modelled: it removes only empty directories and never touches files. -/
def cleanDirectory (cfg : GoConfig) (fs : FS) : ProcessStats × FS :=
  let allFiles := fsPaths fs
  let fileGroups := buildGroups cfg allFiles
  let step2 := fileGroups.foldl (fun acc g => processGroup cfg acc g) ([], fs)
  let processed := step2.1
  let step3 := allFiles.foldl
    (fun (acc : Nat × FS) f =>
      if f ∈ processed then acc
      else if !keepEligible cfg f then (acc.1 + 1, moveToRemove acc.2 f)
      else acc)
    (0, step2.2)
  (⟨allFiles.length, allFiles.length - step3.1, step3.1, true⟩, step3.2)

/-- Strict lexicographic order on Go strings (byte order; on the ASCII names
used in concrete inputs this equals Go's string comparison). -/
def strLt : List Char → List Char → Bool
  | [], [] => false
  | [], _ :: _ => true
  | _ :: _, [] => false
  | a :: as, b :: bs => if a = b then strLt as bs else decide (a < b)

/-- Lexicographic order on component lists, as `filepath.Walk` visits paths
(lexical order within each directory, depth first). -/
def compsLt : List (List Char) → List (List Char) → Bool
  | [], [] => false
  | [], _ :: _ => true
  | _ :: _, [] => false
  | a :: as, b :: bs => if a = b then compsLt as bs else strLt a b

/-- Full component sequence of a path. -/
def pathComps (p : FPath) : List (List Char) := p.dir ++ [p.name]

/-- Insertion step for `walkOrder`. -/
def walkInsert (e : FileEntry) : FS → FS
  | [] => [e]
  | e' :: rest =>
    if compsLt (pathComps e.path) (pathComps e'.path) then e :: e' :: rest
    else e' :: walkInsert e rest

/-- The `filepath.Walk` enumeration order of a file system: files sorted by
lexical order of their full paths. -/
def walkOrder (fs : FS) : FS := fs.foldr walkInsert []

def exCfg : GoConfig := ⟨[gs "pdf", gs "txt"], [gs "pdf", gs "txt"]⟩

def exFS : FS :=
  [⟨0, ⟨[gs "root"], gs "a.pdf"⟩⟩, ⟨1, ⟨[gs "root"], gs "a.txt"⟩⟩,
   ⟨2, ⟨[gs "root"], gs "b.bin"⟩⟩]

example : (cleanDirectory exCfg exFS).1 = ⟨3, 2, 1, true⟩ := by decide
example :
    (cleanDirectory exCfg exFS).2 =
      [⟨0, ⟨[gs "root"], gs "a.pdf"⟩⟩,
       ⟨1, ⟨[gs "root", gs ".remove"], gs "a.txt"⟩⟩,
       ⟨2, ⟨[gs "root", gs ".remove"], gs "b.bin"⟩⟩] := by decide

def exCfg2 : GoConfig := ⟨[gs "pdf"], [gs "pdf"]⟩

def exFS2 : FS := [⟨0, ⟨[gs "root"], gs "a.pdf"⟩⟩, ⟨1, ⟨[gs "root"], gs "b.bin"⟩⟩]

example : (cleanDirectory exCfg2 exFS2).1 = ⟨2, 1, 1, true⟩ := by decide
example :
    walkOrder (cleanDirectory exCfg2 exFS2).2 =
      [⟨1, ⟨[gs "root", gs ".remove"], gs "b.bin"⟩⟩,
       ⟨0, ⟨[gs "root"], gs "a.pdf"⟩⟩] := by decide
example :
    (cleanDirectory exCfg2 (walkOrder (cleanDirectory exCfg2 exFS2).2)).1 =
      ⟨2, 1, 1, true⟩ := by decide
example :
    (cleanDirectory exCfg2 (walkOrder (cleanDirectory exCfg2 exFS2).2)).2 =
      [⟨1, ⟨[gs "root", gs ".remove", gs ".remove"], gs "b.bin"⟩⟩,
       ⟨0, ⟨[gs "root"], gs "a.pdf"⟩⟩] := by decide

def exCfg6 : GoConfig := ⟨[gs "txt", gs "doc", gs "pdf"], [gs "pdf"]⟩

def exG6 : List FPath :=
  [⟨[gs "d"], gs "a.txt"⟩, ⟨[gs "d"], gs "a.doc"⟩, ⟨[gs "d"], gs "a.pdf"⟩]

example :
    prioSort exCfg6 exG6 =
      [⟨[gs "d"], gs "a.pdf"⟩, ⟨[gs "d"], gs "a.doc"⟩, ⟨[gs "d"], gs "a.txt"⟩] := by decide
example : pri exCfg6 ⟨[gs "d"], gs "a.txt"⟩ = 1 := by decide
example : pri exCfg6 ⟨[gs "d"], gs "a.doc"⟩ = 1 := by decide

/-- Structural form of one outer pass of the exchange sort: scan the tail with
a running candidate, swapping the candidate out into the scanned position on a
strict priority improvement. Returns the final candidate and the rewritten
tail. -/
def selPass (cfg : GoConfig) : FPath → List FPath → FPath × List FPath
  | c, [] => (c, [])
  | c, t :: ts =>
    if pri cfg c > pri cfg t then
      let r := selPass cfg t ts
      (r.1, c :: r.2)
    else
      let r := selPass cfg c ts
      (r.1, t :: r.2)

/-- Structural form of the whole exchange sort, running `k` outer passes. -/
def sortSelN (cfg : GoConfig) : Nat → List FPath → List FPath
  | 0, l => l
  | _ + 1, [] => []
  | k + 1, c :: T =>
    let r := selPass cfg c T
    r.1 :: sortSelN cfg k r.2

theorem lget_append_cons (A : List FPath) (c : FPath) (r : List FPath) :
    (A ++ c :: r).get? A.length = some c := by
  induction A with
  | nil => rfl
  | cons a A ih => simpa using ih

theorem lget_append_cons_add (A : List FPath) (c : FPath) (r : List FPath) (m : Nat) :
    (A ++ c :: r).get? (A.length + m + 1) = r.get? m := by
  induction A with
  | nil => simp
  | cons a A ih =>
    have h : (a :: A).length + m + 1 = (A.length + m + 1) + 1 := by
      simp only [List.length_cons]; omega
    rw [List.cons_append, h, List.get?_cons_succ, ih]

theorem lset_append_cons (A : List FPath) (c : FPath) (r : List FPath) (x : FPath) :
    (A ++ c :: r).set A.length x = A ++ x :: r := by
  induction A with
  | nil => rfl
  | cons a A ih =>
    rw [List.cons_append, List.length_cons]
    show a :: (A ++ c :: r).set A.length x = a :: (A ++ x :: r)
    rw [ih]

theorem lset_append_cons_add (A : List FPath) (c : FPath) (r : List FPath)
    (m : Nat) (x : FPath) :
    (A ++ c :: r).set (A.length + m + 1) x = A ++ c :: r.set m x := by
  induction A with
  | nil => simp
  | cons a A ih =>
    have h : (a :: A).length + m + 1 = (A.length + m + 1) + 1 := by
      simp only [List.length_cons]; omega
    rw [List.cons_append, h]
    show a :: (A ++ c :: r).set (A.length + m + 1) x = a :: (A ++ c :: r.set m x)
    rw [ih]

theorem selPass_length (cfg : GoConfig) (c : FPath) (T : List FPath) :
    (selPass cfg c T).2.length = T.length := by
  induction T generalizing c with
  | nil => rfl
  | cons t ts ih =>
    by_cases h : pri cfg c > pri cfg t <;> simp [selPass, h, ih]

/-- The tail-scanning fold of one outer pass, expressed on the position-level
double loop: positions before `A.length` and the already-scanned block `B` are
untouched, the candidate sits at slot `A.length`, and positions
`A.length + B.length + 1` onward hold the unscanned `ts`. -/
theorem innerFold_eq (cfg : GoConfig) :
    ∀ (ts B : List FPath) (c : FPath) (A : List FPath),
      (List.range' (A.length + B.length + 1) ts.length).foldl
          (fun acc j => swapIfGt cfg acc A.length j) (A ++ c :: (B ++ ts)) =
        A ++ (selPass cfg c ts).1 :: (B ++ (selPass cfg c ts).2) := by
  intro ts
  induction ts with
  | nil => intro B c A; simp [selPass]
  | cons t ts ih =>
    intro B c A
    simp only [List.length_cons]
    rw [List.range'_succ, List.foldl_cons]
    have hswap :
        swapIfGt cfg (A ++ c :: (B ++ t :: ts)) A.length (A.length + B.length + 1) =
          if pri cfg c > pri cfg t then A ++ t :: (B ++ c :: ts)
          else A ++ c :: (B ++ t :: ts) := by
      unfold swapIfGt
      rw [lget_append_cons, lget_append_cons_add, lget_append_cons (A := B)]
      by_cases h : pri cfg c > pri cfg t
      · simp only [h, if_true]
        rw [lset_append_cons, lset_append_cons_add, lset_append_cons]
      · simp [h]
    rw [hswap]
    by_cases h : pri cfg c > pri cfg t
    · simp only [h, if_true]
      have h1 : A ++ t :: (B ++ c :: ts) = A ++ t :: ((B ++ [c]) ++ ts) := by simp
      have h2 : A.length + B.length + 1 + 1 = A.length + (B ++ [c]).length + 1 := by
        simp; omega
      rw [h1, h2, ih (B ++ [c]) t A]
      simp [selPass, h]
    · simp only [h, if_false]
      have h1 : A ++ c :: (B ++ t :: ts) = A ++ c :: ((B ++ [t]) ++ ts) := by simp
      have h2 : A.length + B.length + 1 + 1 = A.length + (B ++ [t]).length + 1 := by
        simp; omega
      rw [h1, h2, ih (B ++ [t]) c A]
      simp [selPass, h]

theorem innerLoop_eq (cfg : GoConfig) (A : List FPath) (c : FPath) (T : List FPath) :
    innerLoop cfg A.length (A ++ c :: T) =
      A ++ (selPass cfg c T).1 :: (selPass cfg c T).2 := by
  have h := innerFold_eq cfg T [] c A
  simp only [List.length_nil, Nat.add_zero, List.nil_append] at h
  have hlen : (A ++ c :: T).length - (A.length + 1) = T.length := by
    simp only [List.length_append, List.length_cons]; omega
  unfold innerLoop
  rw [hlen]
  exact h


theorem innerLoop_of_le (cfg : GoConfig) (i : Nat) (l : List FPath)
    (h : l.length ≤ i + 1) : innerLoop cfg i l = l := by
  unfold innerLoop
  have h0 : l.length - (i + 1) = 0 := by omega
  rw [h0]
  rfl

theorem foldl_innerLoop_short (cfg : GoConfig) :
    ∀ (k s : Nat) (l : List FPath), l.length ≤ s →
      (List.range' s k).foldl (fun acc i => innerLoop cfg i acc) l = l := by
  intro k
  induction k with
  | zero => intro s l _; rfl
  | succ k ih =>
    intro s l h
    rw [List.range'_succ, List.foldl_cons, innerLoop_of_le cfg s l (by omega)]
    exact ih (s + 1) l (by omega)

theorem outer_eq (cfg : GoConfig) :
    ∀ (k : Nat) (rest A : List FPath),
      (List.range' A.length k).foldl (fun acc i => innerLoop cfg i acc) (A ++ rest) =
        A ++ sortSelN cfg k rest := by
  intro k
  induction k with
  | zero => intro rest A; rfl
  | succ k ih =>
    intro rest A
    rw [List.range'_succ, List.foldl_cons]
    cases rest with
    | nil =>
      rw [innerLoop_of_le cfg A.length (A ++ []) (by simp)]
      rw [foldl_innerLoop_short cfg k (A.length + 1) (A ++ [])
        (by simp)]
      simp [sortSelN]
    | cons c T =>
      rw [innerLoop_eq cfg A c T]
      have h1 : A ++ (selPass cfg c T).1 :: (selPass cfg c T).2 =
          (A ++ [(selPass cfg c T).1]) ++ (selPass cfg c T).2 := by simp
      have h2 : A.length + 1 = (A ++ [(selPass cfg c T).1]).length := by simp
      rw [h1, h2, ih (selPass cfg c T).2 (A ++ [(selPass cfg c T).1])]
      simp [sortSelN]

theorem prioSort_eq (cfg : GoConfig) (l : List FPath) :
    prioSort cfg l = sortSelN cfg (l.length - 1) l := by
  have h := outer_eq cfg (l.length - 1) l []
  simpa [prioSort, List.range_eq_range'] using h

theorem selPass_perm (cfg : GoConfig) :
    ∀ (T : List FPath) (c : FPath),
      List.Perm ((selPass cfg c T).1 :: (selPass cfg c T).2) (c :: T) := by
  intro T
  induction T with
  | nil => intro c; exact List.Perm.refl _
  | cons t ts ih =>
    intro c
    by_cases h : pri cfg c > pri cfg t
    · simp only [selPass, h, if_true]
      exact (List.Perm.swap c (selPass cfg t ts).1 (selPass cfg t ts).2).trans
        ((ih t).cons c)
    · simp only [selPass, h, if_false]
      exact ((List.Perm.swap t (selPass cfg c ts).1 (selPass cfg c ts).2).trans
        ((ih c).cons t)).trans (List.Perm.swap c t ts)

theorem selPass_fst_le (cfg : GoConfig) :
    ∀ (T : List FPath) (c : FPath),
      pri cfg (selPass cfg c T).1 ≤ pri cfg c ∧
        ∀ x ∈ (selPass cfg c T).2, pri cfg (selPass cfg c T).1 ≤ pri cfg x := by
  intro T
  induction T with
  | nil => intro c; exact ⟨Nat.le_refl _, by intro x hx; cases hx⟩
  | cons t ts ih =>
    intro c
    by_cases h : pri cfg c > pri cfg t
    · simp only [selPass, h, if_true]
      refine ⟨Nat.le_trans (ih t).1 (Nat.le_of_lt h), ?_⟩
      intro x hx
      rcases List.mem_cons.mp hx with rfl | hx
      · exact Nat.le_trans (ih t).1 (Nat.le_of_lt h)
      · exact (ih t).2 x hx
    · simp only [selPass, h, if_false]
      refine ⟨(ih c).1, ?_⟩
      intro x hx
      rcases List.mem_cons.mp hx with rfl | hx
      · exact Nat.le_trans (ih c).1 (Nat.le_of_not_lt h)
      · exact (ih c).2 x hx

theorem sortSelN_perm (cfg : GoConfig) :
    ∀ (k : Nat) (l : List FPath), List.Perm (sortSelN cfg k l) l := by
  intro k
  induction k with
  | zero => intro l; exact List.Perm.refl _
  | succ k ih =>
    intro l
    cases l with
    | nil => exact List.Perm.refl _
    | cons c T =>
      exact ((ih (selPass cfg c T).2).cons (selPass cfg c T).1).trans
        (selPass_perm cfg T c)

theorem sortSelN_sorted (cfg : GoConfig) :
    ∀ (k : Nat) (l : List FPath), l.length ≤ k + 1 →
      (sortSelN cfg k l).Pairwise (fun a b => pri cfg a ≤ pri cfg b) := by
  intro k
  induction k with
  | zero =>
    intro l hl
    match l, hl with
    | [], _ => exact List.Pairwise.nil
    | [a], _ => exact List.pairwise_singleton _ _
  | succ k ih =>
    intro l hl
    cases l with
    | nil => exact List.Pairwise.nil
    | cons c T =>
      refine List.Pairwise.cons ?_ (ih (selPass cfg c T).2 ?_)
      · intro x hx
        have hx' : x ∈ (selPass cfg c T).2 :=
          (sortSelN_perm cfg k (selPass cfg c T).2).mem_iff.mp hx
        exact (selPass_fst_le cfg T c).2 x hx'
      · have hlen := selPass_length cfg c T
        simp only [List.length_cons] at hl
        omega

/-- `h` is the first-seen member of minimal priority of `l`, at position `i`:
it has minimal priority, and every strictly earlier member has strictly larger
priority. -/
def FirstMinAt (cfg : GoConfig) (l : List FPath) (h : FPath) (i : Nat) : Prop :=
  l.get? i = some h ∧ (∀ x ∈ l, pri cfg h ≤ pri cfg x) ∧
    ∀ j, j < i → ∀ x, l.get? j = some x → pri cfg h < pri cfg x

theorem selPass_firstMin (cfg : GoConfig) :
    ∀ (T : List FPath) (c : FPath),
      ∃ i, FirstMinAt cfg (c :: T) (selPass cfg c T).1 i := by
  intro T
  induction T with
  | nil =>
    intro c
    refine ⟨0, rfl, ?_, ?_⟩
    · intro x hx
      rcases List.mem_singleton.mp hx with rfl
      exact Nat.le_refl _
    · intro j hj; omega
  | cons t ts ih =>
    intro c
    by_cases h : pri cfg c > pri cfg t
    · simp only [selPass, h, if_true]
      obtain ⟨i₀, hget, hmin, hstrict⟩ := ih t
      refine ⟨i₀ + 1, hget, ?_, ?_⟩
      · intro x hx
        rcases List.mem_cons.mp hx with rfl | hx
        · exact Nat.le_trans (hmin t (List.mem_cons_self t ts)) (Nat.le_of_lt h)
        · exact hmin x hx
      · intro j hj x hx
        cases j with
        | zero =>
          cases hx
          exact Nat.lt_of_le_of_lt (hmin t (List.mem_cons_self t ts)) h
        | succ j' =>
          exact hstrict j' (by omega) x hx
    · simp only [selPass, h, if_false]
      obtain ⟨i₀, hget, hmin, hstrict⟩ := ih c
      cases i₀ with
      | zero =>
        have hc : (selPass cfg c ts).1 = c := by
          have := hget
          simp only [List.get?_cons_zero, Option.some.injEq] at this
          exact this.symm
        refine ⟨0, by simp [hc], ?_, ?_⟩
        · intro x hx
          rcases List.mem_cons.mp hx with rfl | hx
          · rw [hc]
          rcases List.mem_cons.mp hx with rfl | hx
          · rw [hc]; exact Nat.le_of_not_lt h
          · exact hmin x (List.mem_cons_of_mem c hx)
        · intro j hj; omega
      | succ m =>
        have hget' : ts.get? m = some (selPass cfg c ts).1 := hget
        have hc : pri cfg (selPass cfg c ts).1 < pri cfg c :=
          hstrict 0 (Nat.succ_pos m) c rfl
        refine ⟨m + 2, hget', ?_, ?_⟩
        · intro x hx
          rcases List.mem_cons.mp hx with rfl | hx
          · exact Nat.le_of_lt hc
          rcases List.mem_cons.mp hx with rfl | hx
          · exact Nat.le_trans (Nat.le_of_lt hc) (Nat.le_of_not_lt h)
          · exact hmin x (List.mem_cons_of_mem c hx)
        · intro j hj x hx
          match j, hx with
          | 0, hx =>
            cases hx
            exact hc
          | 1, hx =>
            cases hx
            exact Nat.lt_of_lt_of_le hc (Nat.le_of_not_lt h)
          | (j' + 2), hx =>
            exact hstrict (j' + 1) (by omega) x hx

theorem natChars_digits (n : Nat) : ∀ c ∈ natChars n, '0' ≤ c ∧ c ≤ '9' := by
  intro c hc
  rw [natChars_eq] at hc
  by_cases h : n = 0
  · simp only [h, if_true] at hc
    rcases List.mem_singleton.mp hc with rfl
    exact ⟨Nat.le_refl _, by decide⟩
  · simp only [h, if_false, List.mem_reverse, List.mem_map] at hc
    obtain ⟨d, hd, rfl⟩ := hc
    have hlt : d < 10 := Nat.digits_lt_base (by norm_num) hd
    interval_cases d <;> exact ⟨by decide, by decide⟩

theorem digitChar_inj {d₁ d₂ : Nat} (h₁ : d₁ < 10) (h₂ : d₂ < 10)
    (h : Char.ofNat (48 + d₁) = Char.ofNat (48 + d₂)) : d₁ = d₂ := by
  interval_cases d₁ <;> interval_cases d₂ <;> simp_all

theorem map_digitChar_inj :
    ∀ (l₁ l₂ : List Nat), (∀ x ∈ l₁, x < 10) → (∀ x ∈ l₂, x < 10) →
      l₁.map (fun d => Char.ofNat (48 + d)) = l₂.map (fun d => Char.ofNat (48 + d)) →
      l₁ = l₂ := by
  intro l₁
  induction l₁ with
  | nil => intro l₂ _ _ h; cases l₂ with
    | nil => rfl
    | cons b bs => simp at h
  | cons a as ih =>
    intro l₂ h₁ h₂ h
    cases l₂ with
    | nil => simp at h
    | cons b bs =>
      simp only [List.map_cons, List.cons.injEq] at h
      have ha : a = b := digitChar_inj (h₁ a (List.mem_cons_self a as))
        (h₂ b (List.mem_cons_self b bs)) h.1
      rw [ha, ih bs (fun x hx => h₁ x (List.mem_cons_of_mem a hx))
        (fun x hx => h₂ x (List.mem_cons_of_mem b hx)) h.2]

theorem natChars_inj : ∀ m n : Nat, natChars m = natChars n → m = n := by
  have key : ∀ n : Nat, n ≠ 0 → natChars n ≠ ['0'] := by
    intro n hn hcon
    rw [natChars_eq] at hcon
    simp only [hn, if_false] at hcon
    have : (Nat.digits 10 n).map (fun d => Char.ofNat (48 + d)) = ['0'] := by
      have := congrArg List.reverse hcon
      simpa using this
    have hd : Nat.digits 10 n = [0] := by
      cases hds : Nat.digits 10 n with
      | nil => rw [hds] at this; simp at this
      | cons d ds =>
        rw [hds] at this
        cases ds with
        | nil =>
          simp only [List.map_cons, List.map_nil, List.cons.injEq] at this
          have hlt : d < 10 := Nat.digits_lt_base (by norm_num)
            (by rw [hds]; exact List.mem_cons_self d [])
          have hd0 : d = 0 := @digitChar_inj d 0 hlt (by norm_num)
            (by rw [this.1])
          rw [hd0]
        | cons d' ds' => simp at this
    have : n = 0 := by
      have h0 := Nat.ofDigits_digits 10 n
      rw [hd] at h0
      simpa using h0.symm
    exact hn this
  intro m n h
  by_cases hm : m = 0 <;> by_cases hn : n = 0
  · rw [hm, hn]
  · have h0 : natChars n = ['0'] := by rw [← h, hm]; rfl
    exact absurd h0 (key n hn)
  · have h0 : natChars m = ['0'] := by rw [h, hn]; rfl
    exact absurd h0 (key m hm)
  · rw [natChars_eq, natChars_eq] at h
    simp only [hm, hn, if_false] at h
    have h' := congrArg List.reverse h
    simp only [List.reverse_reverse] at h'
    have hd := map_digitChar_inj _ _
      (fun x hx => Nat.digits_lt_base (by norm_num) hx)
      (fun x hx => Nat.digits_lt_base (by norm_num) hx) h'
    have h0 := Nat.ofDigits_digits 10 m
    rw [hd] at h0
    rw [← h0, Nat.ofDigits_digits 10 n]

theorem dropWhile_head_not (p : Char → Bool) :
    ∀ (l : List Char) (d : Char) (ds : List Char),
      l.dropWhile p = d :: ds → p d = false := by
  intro l
  induction l with
  | nil => intro d ds h; cases h
  | cons a l ih =>
    intro d ds h
    by_cases hp : p a
    · rw [List.dropWhile_cons_of_pos hp] at h
      exact ih d ds h
    · rw [List.dropWhile_cons_of_neg hp] at h
      cases h
      exact Bool.of_not_eq_true hp

/-- Structure of `goExt`: either the name has no dot and the extension is
empty, or the extension is a dot followed by the dot-free text after the last
dot of the name. -/
theorem goExt_cases (name : List Char) :
    (goExt name = [] ∧ '.' ∉ name) ∨
      (∃ stem' tail, goExt name = '.' :: tail ∧ '.' ∉ tail ∧
        name = stem' ++ '.' :: tail) := by
  by_cases hdot : '.' ∈ name
  · right
    have hsplit := List.takeWhile_append_dropWhile
      (p := fun c => decide (c ≠ '.')) (l := name.reverse)
    have hne : name.reverse.dropWhile (fun c => decide (c ≠ '.')) ≠ [] := by
      intro hnil
      have hall := List.dropWhile_eq_nil_iff.mp hnil
      have := hall '.' (List.mem_reverse.mpr hdot)
      simp at this
    obtain ⟨d, ds, hds⟩ := List.exists_cons_of_ne_nil hne
    have hd : d = '.' := by
      have := dropWhile_head_not _ _ _ _ hds
      simpa using this
    refine ⟨ds.reverse, (name.reverse.takeWhile (fun c => decide (c ≠ '.'))).reverse,
      ?_, ?_, ?_⟩
    · simp [goExt, hdot]
    · intro hmem
      have hmem' := List.mem_reverse.mp hmem
      have := List.mem_takeWhile_imp hmem'
      simp at this
    · have hname : name =
          (name.reverse.dropWhile (fun c => decide (c ≠ '.'))).reverse ++
            (name.reverse.takeWhile (fun c => decide (c ≠ '.'))).reverse := by
        have h2 := congrArg List.reverse hsplit
        rw [List.reverse_append, List.reverse_reverse] at h2
        exact h2.symm
      rw [hds, hd] at hname
      simpa using hname
  · left
    exact ⟨by simp [goExt, hdot], hdot⟩

theorem trimSuffixG_append (s t : List Char) : trimSuffixG (s ++ t) t = s := by
  unfold trimSuffixG
  have hsuf : t.isSuffixOf (s ++ t) = true := by
    rw [List.isSuffixOf_iff_suffix]
    exact ⟨s, rfl⟩
  rw [if_pos hsuf]
  have hlen : (s ++ t).length - t.length = s.length := by
    simp
  rw [hlen, List.take_left]

/-- The stem and extension reassemble the base name. -/
theorem stem_append_goExt (name : List Char) :
    trimSuffixG name (goExt name) ++ goExt name = name := by
  rcases goExt_cases name with ⟨hnil, _⟩ | ⟨stem', tail, hext, _, hname⟩
  · rw [hnil]
    unfold trimSuffixG
    have : ([] : List Char).isSuffixOf name = true := by
      rw [List.isSuffixOf_iff_suffix]
      exact List.nil_suffix
    rw [if_pos this]
    simp
  · rw [hext]
    conv in trimSuffixG name _ => rw [hname]
    rw [trimSuffixG_append, ← hname]

theorem takeWhile_append_not (p : Char → Bool) :
    ∀ (l₁ : List Char) (a : Char) (l₂ : List Char),
      (∀ x ∈ l₁, p x = true) → p a = false →
      (l₁ ++ a :: l₂).takeWhile p = l₁ := by
  intro l₁
  induction l₁ with
  | nil => intro a l₂ _ ha; simp [List.takeWhile_cons, ha]
  | cons x xs ih =>
    intro a l₂ hall ha
    have hx : p x = true := hall x (List.mem_cons_self x xs)
    simp only [List.cons_append, List.takeWhile_cons, hx, if_true]
    rw [ih a l₂ (fun y hy => hall y (List.mem_cons_of_mem x hy)) ha]

/-- `goExt` of a list of the form `front ++ '.' :: tail`, `tail` dot-free. -/
theorem goExt_append_dot (front tail : List Char) (htail : '.' ∉ tail) :
    goExt (front ++ '.' :: tail) = '.' :: tail := by
  have hdot : '.' ∈ front ++ '.' :: tail := by
    exact List.mem_append_right front (List.mem_cons_self _ _)
  unfold goExt
  rw [if_pos hdot]
  have hrev : (front ++ '.' :: tail).reverse =
      tail.reverse ++ '.' :: front.reverse := by
    simp
  rw [hrev, takeWhile_append_not _ tail.reverse '.' front.reverse
    (by
      intro x hx
      have := List.mem_reverse.mp hx
      simp only [decide_eq_true_eq]
      intro hcon
      exact htail (hcon ▸ this))
    (by simp)]
  simp

theorem trimSuffixG_nil (s : List Char) : trimSuffixG s [] = s := by
  unfold trimSuffixG
  have h : ([] : List Char).isSuffixOf s = true := by
    rw [List.isSuffixOf_iff_suffix]
    exact List.nil_suffix
  rw [if_pos h]
  simp

theorem natChars_ne_dot (n : Nat) : '.' ∉ natChars n := by
  intro hmem
  have := natChars_digits n '.' hmem
  exact absurd this.1 (by decide)

/-- Probing suffixes never change the extension: `name_k.ext` has the same
extension as `name.ext`. -/
theorem goExt_candName (b : List Char) (k : Nat) :
    goExt (candName b k) = goExt b := by
  cases k with
  | zero => rfl
  | succ k =>
    show goExt (trimSuffixG b (goExt b) ++ '_' :: natChars (k + 1) ++ goExt b) =
      goExt b
    rcases goExt_cases b with ⟨hnil, hdot⟩ | ⟨stem', tail, hext, htail, hname⟩
    · rw [hnil, trimSuffixG_nil]
      have hnodot : '.' ∉ b ++ '_' :: natChars (k + 1) ++ [] := by
        simp only [List.append_nil, List.mem_append, List.mem_cons]
        rintro (h | h | h)
        · exact hdot h
        · cases h
        · exact natChars_ne_dot (k + 1) h
      simp only [goExt, List.append_nil] at hnodot ⊢
      rw [if_neg (by simpa using hnodot)]
    · rw [hext]
      conv in trimSuffixG b _ => rw [hname]
      rw [trimSuffixG_append]
      have hassoc : stem' ++ '_' :: natChars (k + 1) ++ '.' :: tail =
          (stem' ++ '_' :: natChars (k + 1)) ++ '.' :: tail := by
        simp
      rw [goExt_append_dot _ _ htail]

theorem candName_zero_length (b : List Char) (k : Nat) :
    (candName b (k + 1)).length = b.length + 1 + (natChars (k + 1)).length := by
  show (trimSuffixG b (goExt b) ++ '_' :: natChars (k + 1) ++ goExt b).length = _
  have hlen := congrArg List.length (stem_append_goExt b)
  simp only [List.length_append] at hlen
  simp only [List.length_append, List.length_cons]
  omega

theorem natChars_ne_nil (n : Nat) : natChars n ≠ [] := by
  rw [natChars_eq]
  by_cases h : n = 0
  · simp [h]
  · simp only [h, if_false]
    intro hcon
    have : (Nat.digits 10 n).map (fun d => Char.ofNat (48 + d)) = [] := by
      have := congrArg List.reverse hcon
      simpa using this
    have hd : Nat.digits 10 n = [] := by
      cases hds : Nat.digits 10 n with
      | nil => rfl
      | cons d ds => rw [hds] at this; simp at this
    have h0 := Nat.ofDigits_digits 10 n
    rw [hd] at h0
    exact h (by simpa using h0.symm)

theorem candName_inj (b : List Char) :
    ∀ j k : Nat, candName b j = candName b k → j = k := by
  have hlen : ∀ m : Nat, b.length < (candName b (m + 1)).length := by
    intro m
    rw [candName_zero_length]
    have := natChars_ne_nil (m + 1)
    have hpos : 0 < (natChars (m + 1)).length := List.length_pos.mpr this
    omega
  intro j k h
  match j, k with
  | 0, 0 => rfl
  | 0, k + 1 =>
    have hL : b.length = (candName b (k + 1)).length := congrArg List.length h
    have := hlen k
    omega
  | j + 1, 0 =>
    have hL : (candName b (j + 1)).length = b.length := congrArg List.length h
    have := hlen j
    omega
  | j + 1, k + 1 =>
    have h' : trimSuffixG b (goExt b) ++ '_' :: natChars (j + 1) ++ goExt b =
        trimSuffixG b (goExt b) ++ '_' :: natChars (k + 1) ++ goExt b := h
    rw [List.append_assoc, List.append_assoc] at h'
    have h2 := List.append_cancel_left h'
    have h3 : natChars (j + 1) ++ goExt b = natChars (k + 1) ++ goExt b := by
      injection h2
    have h4 := List.append_cancel_right h3
    have := natChars_inj (j + 1) (k + 1) h4
    omega

theorem occupied_iff (fs : FS) (q : FPath) :
    occupied fs q = true ↔ q ∈ fsPaths fs := by
  unfold occupied fsPaths
  rw [List.any_eq_true]
  constructor
  · rintro ⟨e, he, hq⟩
    exact List.mem_map.mpr ⟨e, he, by simpa using hq⟩
  · rintro hq
    obtain ⟨e, he, hq⟩ := List.mem_map.mp hq
    exact ⟨e, he, by simpa using hq⟩

theorem probeLoop_is_cand (fs : FS) (rdir : List (List Char)) (b : List Char) :
    ∀ (fuel k : Nat), ∃ k', probeLoop fs rdir b k fuel = candName b k' := by
  intro fuel
  induction fuel with
  | zero => intro k; exact ⟨k, rfl⟩
  | succ fuel ih =>
    intro k
    unfold probeLoop
    by_cases h : occupied fs ⟨rdir, candName b k⟩
    · rw [if_pos h]
      exact ih (k + 1)
    · rw [if_neg h]
      exact ⟨k, rfl⟩

theorem probeLoop_first_free (fs : FS) (rdir : List (List Char)) (b : List Char) :
    ∀ (fuel k : Nat),
      (∃ j, j < fuel ∧ occupied fs ⟨rdir, candName b (k + j)⟩ = false) →
      ∃ j, probeLoop fs rdir b k fuel = candName b (k + j) ∧
        occupied fs ⟨rdir, candName b (k + j)⟩ = false ∧
        ∀ j', j' < j → occupied fs ⟨rdir, candName b (k + j')⟩ = true := by
  intro fuel
  induction fuel with
  | zero =>
    rintro k ⟨j, hj, _⟩
    omega
  | succ fuel ih =>
    rintro k ⟨j, hj, hfree⟩
    by_cases h : occupied fs ⟨rdir, candName b k⟩
    · have hj0 : j ≠ 0 := by
        rintro rfl
        rw [Nat.add_zero] at hfree
        rw [hfree] at h
        cases h
      obtain ⟨j₁, rfl⟩ := Nat.exists_eq_succ_of_ne_zero hj0
      have hex : ∃ j', j' < fuel ∧
          occupied fs ⟨rdir, candName b (k + 1 + j')⟩ = false := by
        refine ⟨j₁, by omega, ?_⟩
        have : k + 1 + j₁ = k + (j₁ + 1) := by omega
        rw [this]
        exact hfree
      obtain ⟨j₂, hres, hfree₂, hocc₂⟩ := ih (k + 1) hex
      refine ⟨j₂ + 1, ?_, ?_, ?_⟩
      · unfold probeLoop
        rw [if_pos h]
        have : k + 1 + j₂ = k + (j₂ + 1) := by omega
        rw [← this]
        exact hres
      · have : k + (j₂ + 1) = k + 1 + j₂ := by omega
        rw [this]
        exact hfree₂
      · intro j' hj'
        cases j' with
        | zero => simpa using h
        | succ j₃ =>
          have : k + (j₃ + 1) = k + 1 + j₃ := by omega
          rw [this]
          exact hocc₂ j₃ (by omega)
    · refine ⟨0, ?_, ?_, ?_⟩
      · unfold probeLoop
        rw [if_neg h]
        simp
      · simpa using Bool.of_not_eq_true h
      · intro j' hj'; omega

theorem exists_free_cand (fs : FS) (rdir : List (List Char)) (b : List Char) :
    ∃ j, j < fs.length + 1 ∧ occupied fs ⟨rdir, candName b j⟩ = false := by
  by_contra hcon
  push_neg at hcon
  have hall : ∀ j, j < fs.length + 1 →
      (⟨rdir, candName b j⟩ : FPath) ∈ fsPaths fs := by
    intro j hj
    have := hcon j hj
    exact (occupied_iff fs _).mp (by
      cases hb : occupied fs ⟨rdir, candName b j⟩ with
      | false => exact absurd hb this
      | true => rfl)
  have hnd : ((List.range (fs.length + 1)).map
      (fun j => (⟨rdir, candName b j⟩ : FPath))).Nodup := by
    refine List.Nodup.map_on ?_ (List.nodup_range _)
    intro x _ y _ hxy
    have := candName_inj b x y (by injection hxy)
    exact this
  have hsub : ((List.range (fs.length + 1)).map
      (fun j => (⟨rdir, candName b j⟩ : FPath))) ⊆ fsPaths fs := by
    intro q hq
    obtain ⟨j, hj, rfl⟩ := List.mem_map.mp hq
    exact hall j (List.mem_range.mp hj)
  have hle := (List.subperm_of_subset hnd hsub).length_le
  simp only [List.length_map, List.length_range, fsPaths, List.length_map] at hle
  omega

/-- The probed destination: it is some candidate name, it is currently free
(never replacing an existing file), and every earlier candidate is occupied
(the suffix counter probes `name`, `name_1`, `name_2`, … in order). -/
theorem probe_spec (fs : FS) (rdir : List (List Char)) (b : List Char) :
    ∃ k, probe fs rdir b = candName b k ∧
      occupied fs ⟨rdir, candName b k⟩ = false ∧
      ∀ j, j < k → occupied fs ⟨rdir, candName b j⟩ = true := by
  have hex := exists_free_cand fs rdir b
  have := probeLoop_first_free fs rdir b (fs.length + 1) 0
    (by
      obtain ⟨j, hj, hfree⟩ := hex
      exact ⟨j, hj, by simpa using hfree⟩)
  obtain ⟨j, hres, hfree, hocc⟩ := this
  refine ⟨j, by simpa using hres, by simpa using hfree, ?_⟩
  intro j' hj'
  have := hocc j' hj'
  simpa using this

/-- The destination path `moveToRemove` chooses for the file at `p`. -/
def destOf (fs : FS) (p : FPath) : FPath :=
  ⟨p.dir ++ [removeComp], probe fs (p.dir ++ [removeComp]) p.name⟩

theorem moveToRemove_eq_map (fs : FS) (p : FPath) :
    moveToRemove fs p =
      fs.map (fun e => if e.path = p then ⟨e.fid, destOf fs p⟩ else e) := rfl

theorem destOf_fresh (fs : FS) (p : FPath) : destOf fs p ∉ fsPaths fs := by
  obtain ⟨k, hk, hfree, _⟩ := probe_spec fs (p.dir ++ [removeComp]) p.name
  intro hmem
  unfold destOf at hmem
  rw [hk] at hmem
  have := (occupied_iff fs _).mpr hmem
  rw [hfree] at this
  cases this

theorem goExt_probe (fs : FS) (rdir : List (List Char)) (b : List Char) :
    goExt (probe fs rdir b) = goExt b := by
  obtain ⟨k, hk, _, _⟩ := probe_spec fs rdir b
  rw [hk, goExt_candName]

theorem mem_moveToRemove_of_ne (fs : FS) (p : FPath) (e : FileEntry)
    (he : e ∈ fs) (hne : e.path ≠ p) : e ∈ moveToRemove fs p := by
  rw [moveToRemove_eq_map]
  refine List.mem_map.mpr ⟨e, he, ?_⟩
  rw [if_neg hne]

theorem mem_moveToRemove_of_eq (fs : FS) (p : FPath) (e : FileEntry)
    (he : e ∈ fs) (heq : e.path = p) :
    (⟨e.fid, destOf fs p⟩ : FileEntry) ∈ moveToRemove fs p := by
  rw [moveToRemove_eq_map]
  refine List.mem_map.mpr ⟨e, he, ?_⟩
  rw [if_pos heq]

theorem fsPaths_moveToRemove (fs : FS) (p : FPath) :
    fsPaths (moveToRemove fs p) =
      (fsPaths fs).map (fun q => if q = p then destOf fs p else q) := by
  unfold fsPaths
  rw [moveToRemove_eq_map, List.map_map, List.map_map]
  apply List.map_congr_left
  intro e _
  by_cases h : e.path = p <;> simp [h]

theorem nodup_moveToRemove (fs : FS) (p : FPath) (h : (fsPaths fs).Nodup) :
    (fsPaths (moveToRemove fs p)).Nodup := by
  rw [fsPaths_moveToRemove]
  refine List.Nodup.map_on ?_ h
  intro x hx y hy hxy
  by_cases hxp : x = p <;> by_cases hyp : y = p
  · rw [hxp, hyp]
  · rw [if_pos hxp, if_neg hyp] at hxy
    exact absurd (hxy ▸ hy) (destOf_fresh fs p)
  · rw [if_neg hxp, if_pos hyp] at hxy
    exact absurd (hxy ▸ hx) (destOf_fresh fs p)
  · rw [if_neg hxp, if_neg hyp] at hxy
    exact hxy

theorem mem_fsPaths_moveToRemove (fs : FS) (p q : FPath)
    (hq : q ∈ fsPaths fs) (hne : q ≠ p) : q ∈ fsPaths (moveToRemove fs p) := by
  rw [fsPaths_moveToRemove]
  refine List.mem_map.mpr ⟨q, hq, ?_⟩
  rw [if_neg hne]

theorem moveToRemove_proj (fs : FS) (p : FPath) :
    (moveToRemove fs p).map (fun e => (e.fid, goExt e.path.name)) =
      fs.map (fun e => (e.fid, goExt e.path.name)) := by
  rw [moveToRemove_eq_map, List.map_map]
  apply List.map_congr_left
  intro e _
  by_cases h : e.path = p
  · simp only [Function.comp, h, if_true]
    have : goExt (destOf fs p).name = goExt e.path.name := by
      unfold destOf
      rw [goExt_probe, h]
    rw [this, h]
  · simp [Function.comp, h]

theorem moveFold_untouched :
    ∀ (args : List FPath) (fs : FS) (e : FileEntry),
      e ∈ fs → e.path ∉ args → e ∈ args.foldl moveToRemove fs := by
  intro args
  induction args with
  | nil => intro fs e he _; exact he
  | cons q rest ih =>
    intro fs e he hnotin
    have hne : e.path ≠ q := fun h => hnotin (h ▸ List.mem_cons_self q rest)
    exact ih (moveToRemove fs q) e (mem_moveToRemove_of_ne fs q e he hne)
      (fun h => hnotin (List.mem_cons_of_mem q h))

theorem moveFold_moved :
    ∀ (args : List FPath) (fs : FS) (e : FileEntry),
      (fsPaths fs).Nodup → args.Nodup → (∀ a ∈ args, a ∈ fsPaths fs) →
      e ∈ fs → e.path ∈ args →
      ∃ nm, (⟨e.fid, ⟨e.path.dir ++ [removeComp], nm⟩⟩ : FileEntry) ∈
        args.foldl moveToRemove fs := by
  intro args
  induction args with
  | nil => intro fs e _ _ _ _ hmem; cases hmem
  | cons q rest ih =>
    intro fs e hnd hargsnd hsub he hmem
    have hrest_sub : ∀ a ∈ rest, a ∈ fsPaths (moveToRemove fs q) := by
      intro a ha
      have haq : a ≠ q := by
        intro h
        rw [h] at ha
        exact (List.nodup_cons.mp hargsnd).1 ha
      exact mem_fsPaths_moveToRemove fs q a
        (hsub a (List.mem_cons_of_mem q ha)) haq
    by_cases heq : e.path = q
    · refine ⟨(destOf fs q).name, ?_⟩
      have he' : (⟨e.fid, destOf fs q⟩ : FileEntry) ∈ moveToRemove fs q :=
        mem_moveToRemove_of_eq fs q e he heq
      have hdest_dir : destOf fs q = ⟨e.path.dir ++ [removeComp], (destOf fs q).name⟩ := by
        unfold destOf
        rw [heq]
      rw [List.foldl_cons]
      have hfresh : (destOf fs q) ∉ rest := by
        intro hmem'
        exact destOf_fresh fs q (hsub _ (List.mem_cons_of_mem q hmem'))
      have := moveFold_untouched rest (moveToRemove fs q) ⟨e.fid, destOf fs q⟩ he'
        (by simpa using hfresh)
      rw [hdest_dir] at this
      exact this
    · have hmem' : e.path ∈ rest := by
        rcases List.mem_cons.mp hmem with h | h
        · exact absurd h heq
        · exact h
      rw [List.foldl_cons]
      exact ih (moveToRemove fs q) e (nodup_moveToRemove fs q hnd)
        (List.nodup_cons.mp hargsnd).2 hrest_sub
        (mem_moveToRemove_of_ne fs q e he heq) hmem'

theorem moveFold_proj :
    ∀ (args : List FPath) (fs : FS),
      (args.foldl moveToRemove fs).map (fun e => (e.fid, goExt e.path.name)) =
        fs.map (fun e => (e.fid, goExt e.path.name)) := by
  intro args
  induction args with
  | nil => intro fs; rfl
  | cons q rest ih =>
    intro fs
    rw [List.foldl_cons, ih (moveToRemove fs q), moveToRemove_proj]

/-- A file belongs to the bucket keyed `k` iff it is keep-eligible and has
grouping key `k`. -/
def bucketPred (cfg : GoConfig) (k : FPath) (f : FPath) : Bool :=
  keepEligible cfg f && decide (groupKey f = k)

theorem addToGroups_keys (k : FPath) (p : FPath) :
    ∀ (G : List (FPath × List FPath)),
      (addToGroups G k p).map Prod.fst =
        if k ∈ G.map Prod.fst then G.map Prod.fst else G.map Prod.fst ++ [k] := by
  intro G
  induction G with
  | nil => simp [addToGroups]
  | cons g rest ih =>
    obtain ⟨k', b'⟩ := g
    by_cases h : k' = k
    · subst h
      simp [addToGroups]
    · have hred : addToGroups ((k', b') :: rest) k p = (k', b') :: addToGroups rest k p := by
        simp [addToGroups, h]
      rw [hred]
      by_cases hmem : k ∈ rest.map Prod.fst
      · simp only [List.map_cons, ih, if_pos hmem]
        rw [if_pos]
        exact List.mem_cons_of_mem _ hmem
      · simp only [List.map_cons, ih, if_neg hmem]
        rw [if_neg]
        · simp
        · intro hcon
          rcases List.mem_cons.mp hcon with hc | hc
          · exact h hc.symm
          · exact hmem hc

theorem addToGroups_mem_cases (k : FPath) (p : FPath) :
    ∀ (G : List (FPath × List FPath)), (G.map Prod.fst).Nodup →
      ∀ g ∈ addToGroups G k p,
        (g ∈ G ∧ g.1 ≠ k) ∨ (∃ b, (k, b) ∈ G ∧ g = (k, b ++ [p])) ∨
          (k ∉ G.map Prod.fst ∧ g = (k, [p])) := by
  intro G
  induction G with
  | nil =>
    intro _ g hg
    rcases List.mem_singleton.mp hg with rfl
    exact Or.inr (Or.inr ⟨by simp, rfl⟩)
  | cons hd rest ih =>
    obtain ⟨k', b'⟩ := hd
    intro hnd g hg
    have hnd0 : (k' :: rest.map Prod.fst).Nodup := by
      rw [List.map_cons] at hnd
      exact hnd
    have hnd' := List.nodup_cons.mp hnd0
    by_cases h : k' = k
    · subst h
      have hg' : g ∈ (k', b' ++ [p]) :: rest := by
        simpa [addToGroups] using hg
      rcases List.mem_cons.mp hg' with rfl | hgr
      · exact Or.inr (Or.inl ⟨b', List.mem_cons_self _ _, rfl⟩)
      · refine Or.inl ⟨List.mem_cons_of_mem _ hgr, ?_⟩
        intro hcon
        exact hnd'.1 (hcon ▸ List.mem_map_of_mem Prod.fst hgr)
    · have hg' : g ∈ (k', b') :: addToGroups rest k p := by
        simpa [addToGroups, h] using hg
      rcases List.mem_cons.mp hg' with rfl | hgr
      · exact Or.inl ⟨List.mem_cons_self _ _, by simpa using h⟩
      · rcases ih hnd'.2 g hgr with ⟨hgG, hgk⟩ | ⟨b, hbG, hgb⟩ | ⟨hknew, hgb⟩
        · exact Or.inl ⟨List.mem_cons_of_mem _ hgG, hgk⟩
        · exact Or.inr (Or.inl ⟨b, List.mem_cons_of_mem _ hbG, hgb⟩)
        · refine Or.inr (Or.inr ⟨?_, hgb⟩)
          intro hcon
          rw [List.map_cons] at hcon
          rcases List.mem_cons.mp hcon with hc | hc
          · exact h hc.symm
          · exact hknew hc

theorem buildGroups_append (cfg : GoConfig) (S : List FPath) (p : FPath) :
    buildGroups cfg (S ++ [p]) =
      if keepEligible cfg p then addToGroups (buildGroups cfg S) (groupKey p) p
      else buildGroups cfg S := by
  unfold buildGroups
  rw [List.foldl_append]
  rfl

/-- Full characterization of `buildGroups`: distinct keys, every bucket is the
filter of the enumeration by its key (hence nonempty and in enumeration
order), and every keep-eligible file's key is present. -/
theorem buildGroups_spec (cfg : GoConfig) (paths : List FPath) :
    ((buildGroups cfg paths).map Prod.fst).Nodup ∧
      (∀ g ∈ buildGroups cfg paths,
        g.2 = paths.filter (bucketPred cfg g.1) ∧ g.2 ≠ []) ∧
      (∀ f ∈ paths, keepEligible cfg f = true →
        groupKey f ∈ (buildGroups cfg paths).map Prod.fst) := by
  induction paths using List.reverseRecOn with
  | nil =>
    refine ⟨by simp [buildGroups], ?_, ?_⟩
    · intro g hg; simp [buildGroups] at hg
    · intro f hf; simp at hf
  | append_singleton S p ih =>
    obtain ⟨hnd, hbuck, hcomp⟩ := ih
    rw [buildGroups_append]
    by_cases hk : keepEligible cfg p = true
    · rw [if_pos hk]
      have hkeys := addToGroups_keys (groupKey p) p (buildGroups cfg S)
      refine ⟨?_, ?_, ?_⟩
      · rw [hkeys]
        by_cases hmem : groupKey p ∈ (buildGroups cfg S).map Prod.fst
        · rw [if_pos hmem]; exact hnd
        · rw [if_neg hmem]
          simp [List.nodup_append, hnd, hmem]
      · intro g hg
        rcases addToGroups_mem_cases (groupKey p) p (buildGroups cfg S) hnd g hg with
          ⟨hgG, hgk⟩ | ⟨b, hbG, rfl⟩ | ⟨hknew, rfl⟩
        · have hb := hbuck g hgG
          refine ⟨?_, hb.2⟩
          rw [List.filter_append, hb.1]
          have : bucketPred cfg g.1 p = false := by
            unfold bucketPred
            have : decide (groupKey p = g.1) = false := by
              simp only [decide_eq_false_iff_not]
              exact fun hcon => hgk hcon.symm
            simp [this]
          simp [List.filter_cons, this]
        · have hb := hbuck (groupKey p, b) hbG
          refine ⟨?_, by simp⟩
          rw [List.filter_append]
          have hpred : bucketPred cfg (groupKey p) p = true := by
            simp [bucketPred, hk]
          have hfp : List.filter (bucketPred cfg (groupKey p)) [p] = [p] := by
            simp [hpred]
          rw [hfp, ← hb.1]
        · refine ⟨?_, by simp⟩
          rw [List.filter_append]
          have hS : S.filter (bucketPred cfg (groupKey p)) = [] := by
            rw [List.filter_eq_nil_iff]
            intro f hf hcon
            have hcon' : keepEligible cfg f = true ∧ groupKey f = groupKey p := by
              simpa [bucketPred] using hcon
            exact hknew (hcon'.2 ▸ hcomp f hf hcon'.1)
          have hpred : bucketPred cfg (groupKey p) p = true := by
            simp [bucketPred, hk]
          simp [hS, List.filter_cons, hpred]
      · intro f hf hkeep
        rw [hkeys]
        have hin : ∀ q, q ∈ (buildGroups cfg S).map Prod.fst →
            (q ∈ if groupKey p ∈ (buildGroups cfg S).map Prod.fst
              then (buildGroups cfg S).map Prod.fst
              else (buildGroups cfg S).map Prod.fst ++ [groupKey p]) := by
          intro q hq
          by_cases hmem : groupKey p ∈ (buildGroups cfg S).map Prod.fst
          · rw [if_pos hmem]; exact hq
          · rw [if_neg hmem]; exact List.mem_append_left _ hq
        rcases List.mem_append.mp hf with hfS | hfp
        · exact hin _ (hcomp f hfS hkeep)
        · rcases List.mem_singleton.mp hfp with rfl
          by_cases hmem : groupKey f ∈ (buildGroups cfg S).map Prod.fst
          · rw [if_pos hmem]; exact hmem
          · rw [if_neg hmem]; exact List.mem_append_right _ (List.mem_singleton.mpr rfl)
    · rw [if_neg hk]
      refine ⟨hnd, ?_, ?_⟩
      · intro g hg
        have hb := hbuck g hg
        refine ⟨?_, hb.2⟩
        rw [List.filter_append, hb.1]
        have hkf : keepEligible cfg p = false := by
          cases hkv : keepEligible cfg p with
          | true => exact absurd hkv hk
          | false => rfl
        have : bucketPred cfg g.1 p = false := by
          simp [bucketPred, hkf]
        simp [List.filter_cons, this]
      · intro f hf hkeep
        rcases List.mem_append.mp hf with hfS | hfp
        · exact hcomp f hfS hkeep
        · rcases List.mem_singleton.mp hfp with rfl
          exact absurd hkeep (by simpa using hk)

theorem prioSort_perm (cfg : GoConfig) (l : List FPath) :
    List.Perm (prioSort cfg l) l := by
  rw [prioSort_eq]
  exact sortSelN_perm cfg _ l

/-- The members of a group that get marked processed (all of them). -/
def keepsOf (cfg : GoConfig) (g : FPath × List FPath) : List FPath :=
  match g.2 with
  | [] => []
  | [f] => [f]
  | f₀ :: f₁ :: fr =>
    match prioSort cfg (f₀ :: f₁ :: fr) with
    | [] => []
    | keep :: rest => keep :: rest

/-- The members of a group that get relocated (all but the sorted head). -/
def losersOf (cfg : GoConfig) (g : FPath × List FPath) : List FPath :=
  match g.2 with
  | [] => []
  | [_] => []
  | f₀ :: f₁ :: fr =>
    match prioSort cfg (f₀ :: f₁ :: fr) with
    | [] => []
    | _ :: rest => rest

theorem processGroup_eq (cfg : GoConfig) (acc : List FPath × FS)
    (g : FPath × List FPath) :
    processGroup cfg acc g =
      (acc.1 ++ keepsOf cfg g, (losersOf cfg g).foldl moveToRemove acc.2) := by
  obtain ⟨pr, s⟩ := acc
  obtain ⟨k, gb⟩ := g
  match gb with
  | [] => simp [processGroup, keepsOf, losersOf]
  | [f] => simp [processGroup, keepsOf, losersOf]
  | f₀ :: f₁ :: fr =>
    show (match prioSort cfg (f₀ :: f₁ :: fr) with
      | [] => (pr, s)
      | keep :: rest => (pr ++ keep :: rest, rest.foldl moveToRemove s)) = _
    cases hps : prioSort cfg (f₀ :: f₁ :: fr) with
    | nil => simp [keepsOf, losersOf, hps]
    | cons kp rest => simp [keepsOf, losersOf, hps]

theorem foldl_processGroup (cfg : GoConfig) :
    ∀ (groups : List (FPath × List FPath)) (procs : List FPath) (fs : FS),
      groups.foldl (processGroup cfg) (procs, fs) =
        (procs ++ groups.flatMap (keepsOf cfg),
         (groups.flatMap (losersOf cfg)).foldl moveToRemove fs) := by
  intro groups
  induction groups with
  | nil => intro procs fs; simp
  | cons g gs ih =>
    intro procs fs
    rw [List.foldl_cons, processGroup_eq cfg (procs, fs) g, ih]
    simp [List.flatMap_cons, List.foldl_append, List.append_assoc]

theorem step3_fold (cfg : GoConfig) (processed : List FPath) :
    ∀ (files : List FPath) (c : Nat) (fs : FS),
      files.foldl
        (fun (acc : Nat × FS) f =>
          if f ∈ processed then acc
          else if !keepEligible cfg f then (acc.1 + 1, moveToRemove acc.2 f)
          else acc)
        (c, fs) =
      (c + (files.filter
          (fun f => !decide (f ∈ processed) && !keepEligible cfg f)).length,
       (files.filter
          (fun f => !decide (f ∈ processed) && !keepEligible cfg f)).foldl
         moveToRemove fs) := by
  intro files
  induction files with
  | nil => intro c fs; simp
  | cons f fr ih =>
    intro c fs
    rw [List.foldl_cons]
    by_cases hmem : f ∈ processed
    · rw [if_pos hmem, ih]
      have hpred : (!decide (f ∈ processed) && !keepEligible cfg f) = false := by
        simp [hmem]
      rw [List.filter_cons, hpred]
      simp
    · rw [if_neg hmem]
      by_cases hk : keepEligible cfg f = true
      · have hpred : (!decide (f ∈ processed) && !keepEligible cfg f) = false := by
          simp [hmem, hk]
        have hnk : (!keepEligible cfg f) = false := by simp [hk]
        rw [hnk, if_neg (by simp), ih, List.filter_cons, hpred]
        simp
      · have hkf : keepEligible cfg f = false := by
          cases hkv : keepEligible cfg f with
          | true => exact absurd hkv hk
          | false => rfl
        have hpred : (!decide (f ∈ processed) && !keepEligible cfg f) = true := by
          simp [hmem, hkf]
        have hnk : (!keepEligible cfg f) = true := by simp [hkf]
        rw [hnk, if_pos rfl, ih, List.filter_cons, hpred]
        simp only [if_true, List.length_cons, List.foldl_cons]
        congr 1
        omega

theorem mem_keepsOf (cfg : GoConfig) (g : FPath × List FPath) :
    ∀ f, f ∈ keepsOf cfg g ↔ f ∈ g.2 := by
  obtain ⟨k, gb⟩ := g
  intro f
  match gb with
  | [] => simp [keepsOf]
  | [f'] => simp [keepsOf]
  | f₀ :: f₁ :: fr =>
    show f ∈ (match prioSort cfg (f₀ :: f₁ :: fr) with
      | [] => [] | keep :: rest => keep :: rest) ↔ _
    cases hps : prioSort cfg (f₀ :: f₁ :: fr) with
    | nil =>
      have := prioSort_perm cfg (f₀ :: f₁ :: fr)
      rw [hps] at this
      have := this.length_eq
      simp at this
    | cons kp rest =>
      have hperm := prioSort_perm cfg (f₀ :: f₁ :: fr)
      rw [hps] at hperm
      exact hperm.mem_iff

theorem mem_losersOf (cfg : GoConfig) (g : FPath × List FPath) :
    ∀ f ∈ losersOf cfg g, f ∈ g.2 := by
  obtain ⟨k, gb⟩ := g
  intro f hf
  match gb with
  | [] => simp [losersOf] at hf
  | [f'] => simp [losersOf] at hf
  | f₀ :: f₁ :: fr =>
    have hf' : f ∈ (match prioSort cfg (f₀ :: f₁ :: fr) with
        | [] => ([] : List FPath) | _ :: rest => rest) := hf
    cases hps : prioSort cfg (f₀ :: f₁ :: fr) with
    | nil =>
      have := prioSort_perm cfg (f₀ :: f₁ :: fr)
      rw [hps] at this
      have := this.length_eq
      simp at this
    | cons kp rest =>
      rw [hps] at hf'
      have hperm := prioSort_perm cfg (f₀ :: f₁ :: fr)
      rw [hps] at hperm
      exact hperm.mem_iff.mp (List.mem_cons_of_mem kp hf')

/-- A file is marked processed by step 2 exactly when it is keep-eligible
(among the enumerated files). -/
theorem processed_iff (cfg : GoConfig) (paths : List FPath) :
    ∀ f ∈ paths,
      (f ∈ (buildGroups cfg paths).flatMap (keepsOf cfg) ↔
        keepEligible cfg f = true) := by
  obtain ⟨hnd, hbuck, hcomp⟩ := buildGroups_spec cfg paths
  intro f hf
  constructor
  · intro hmem
    obtain ⟨g, hg, hfg⟩ := List.mem_flatMap.mp hmem
    have hfb : f ∈ g.2 := (mem_keepsOf cfg g f).mp hfg
    have := hbuck g hg
    rw [this.1] at hfb
    exact (Bool.and_eq_true _ _ ▸ (List.mem_filter.mp hfb).2).1
  · intro hkeep
    have hkey := hcomp f hf hkeep
    obtain ⟨g, hg, hgk⟩ := List.mem_map.mp hkey
    refine List.mem_flatMap.mpr ⟨g, hg, ?_⟩
    rw [mem_keepsOf, (hbuck g hg).1]
    refine List.mem_filter.mpr ⟨hf, ?_⟩
    unfold bucketPred
    rw [hgk, hkeep]
    simp

/-- The full list of relocation arguments of one `cleanDirectory` run: group
losers, then every non-keep-eligible file. -/
def cleanArgs (cfg : GoConfig) (fs : FS) : List FPath :=
  (buildGroups cfg (fsPaths fs)).flatMap (losersOf cfg) ++
    (fsPaths fs).filter (fun f => !keepEligible cfg f)

/-- `cleanDirectory` in closed form: the statistics count every enumerated
file as total, every keep-eligible file as kept and every non-keep-eligible
file as removed, and the file-system output is the fold of `moveToRemove`
over the group losers followed by the non-keep files. -/
theorem cleanDirectory_eq (cfg : GoConfig) (fs : FS) :
    cleanDirectory cfg fs =
      (⟨fs.length,
        fs.length - (fsPaths fs).countP (fun f => !keepEligible cfg f),
        (fsPaths fs).countP (fun f => !keepEligible cfg f), true⟩,
       (cleanArgs cfg fs).foldl moveToRemove fs) := by
  have hfilter :
      (fsPaths fs).filter
        (fun f => !decide (f ∈ (buildGroups cfg (fsPaths fs)).flatMap (keepsOf cfg)) &&
          !keepEligible cfg f) =
      (fsPaths fs).filter (fun f => !keepEligible cfg f) := by
    apply List.filter_congr
    intro f hf
    by_cases hk : keepEligible cfg f = true
    · have hp := (processed_iff cfg (fsPaths fs) f hf).mpr hk
      simp [hp, hk]
    · have hkf : keepEligible cfg f = false := by
        cases hkv : keepEligible cfg f with
        | true => exact absurd hkv hk
        | false => rfl
      have hp : f ∉ (buildGroups cfg (fsPaths fs)).flatMap (keepsOf cfg) := by
        intro hcon
        exact hk ((processed_iff cfg (fsPaths fs) f hf).mp hcon)
      simp [hp, hkf]
  simp only [cleanDirectory]
  have h2 : (buildGroups cfg (fsPaths fs)).foldl
      (fun acc g => processGroup cfg acc g) ([], fs) =
      (([] : List FPath) ++ (buildGroups cfg (fsPaths fs)).flatMap (keepsOf cfg),
       ((buildGroups cfg (fsPaths fs)).flatMap (losersOf cfg)).foldl moveToRemove fs) := by
    exact foldl_processGroup cfg (buildGroups cfg (fsPaths fs)) [] fs
  rw [h2]
  simp only [List.nil_append]
  rw [step3_fold cfg ((buildGroups cfg (fsPaths fs)).flatMap (keepsOf cfg))
    (fsPaths fs) 0
    (((buildGroups cfg (fsPaths fs)).flatMap (losersOf cfg)).foldl moveToRemove fs)]
  rw [hfilter]
  have hlen : (fsPaths fs).length = fs.length := List.length_map _ _
  have hcount : ((fsPaths fs).filter (fun f => !keepEligible cfg f)).length =
      (fsPaths fs).countP (fun f => !keepEligible cfg f) :=
    (List.countP_eq_length_filter _ _).symm
  rw [← List.foldl_append]
  simp only [Nat.zero_add, hlen, hcount]
  rfl

theorem losersOf_nodup (cfg : GoConfig) (g : FPath × List FPath)
    (h : g.2.Nodup) : (losersOf cfg g).Nodup := by
  obtain ⟨k, gb⟩ := g
  match gb with
  | [] => exact List.Pairwise.nil
  | [f'] => exact List.Pairwise.nil
  | f₀ :: f₁ :: fr =>
    show (match prioSort cfg (f₀ :: f₁ :: fr) with
      | [] => ([] : List FPath) | _ :: rest => rest).Nodup
    cases hps : prioSort cfg (f₀ :: f₁ :: fr) with
    | nil => exact List.Pairwise.nil
    | cons kp rest =>
      have hperm := prioSort_perm cfg (f₀ :: f₁ :: fr)
      rw [hps] at hperm
      have hnd : (kp :: rest).Nodup := hperm.nodup_iff.mpr h
      exact (List.nodup_cons.mp hnd).2

theorem flatMap_losers_nodup (cfg : GoConfig) :
    ∀ (G : List (FPath × List FPath)), (G.map Prod.fst).Nodup →
      (∀ g ∈ G, g.2.Nodup ∧ ∀ f ∈ g.2, groupKey f = g.1) →
      (G.flatMap (losersOf cfg)).Nodup := by
  intro G
  induction G with
  | nil => intro _ _; exact List.Pairwise.nil
  | cons g gs ih =>
    intro hnd hbk
    rw [List.map_cons] at hnd
    have hnd' := List.nodup_cons.mp hnd
    rw [List.flatMap_cons]
    rw [List.nodup_append]
    refine ⟨losersOf_nodup cfg g (hbk g (List.mem_cons_self g gs)).1,
      ih hnd'.2 (fun g' hg' => hbk g' (List.mem_cons_of_mem g hg')), ?_⟩
    intro x hx hx'
    obtain ⟨g', hg', hxg'⟩ := List.mem_flatMap.mp hx'
    have hk1 : groupKey x = g.1 :=
      (hbk g (List.mem_cons_self g gs)).2 x (mem_losersOf cfg g x hx)
    have hk2 : groupKey x = g'.1 :=
      (hbk g' (List.mem_cons_of_mem g hg')).2 x (mem_losersOf cfg g' x hxg')
    exact hnd'.1 (hk1 ▸ hk2 ▸ List.mem_map_of_mem Prod.fst hg')

theorem bucket_facts (cfg : GoConfig) (paths : List FPath)
    (hnd : paths.Nodup) :
    ∀ g ∈ buildGroups cfg paths,
      g.2.Nodup ∧ (∀ f ∈ g.2, groupKey f = g.1) ∧
        (∀ f ∈ g.2, f ∈ paths ∧ keepEligible cfg f = true) := by
  obtain ⟨_, hbuck, _⟩ := buildGroups_spec cfg paths
  intro g hg
  have hb := (hbuck g hg).1
  refine ⟨?_, ?_, ?_⟩
  · rw [hb]
    exact hnd.filter _
  · intro f hf
    rw [hb] at hf
    have := (List.mem_filter.mp hf).2
    unfold bucketPred at this
    have h2 := (Bool.and_eq_true _ _ ▸ this).2
    simpa using h2
  · intro f hf
    rw [hb] at hf
    have h1 := (List.mem_filter.mp hf).1
    have := (List.mem_filter.mp hf).2
    unfold bucketPred at this
    exact ⟨h1, (Bool.and_eq_true _ _ ▸ this).1⟩

theorem cleanArgs_sub (cfg : GoConfig) (fs : FS) (hnd : (fsPaths fs).Nodup) :
    ∀ a ∈ cleanArgs cfg fs, a ∈ fsPaths fs := by
  intro a ha
  rcases List.mem_append.mp ha with h | h
  · obtain ⟨g, hg, hag⟩ := List.mem_flatMap.mp h
    exact ((bucket_facts cfg (fsPaths fs) hnd g hg).2.2 a
      (mem_losersOf cfg g a hag)).1
  · exact (List.mem_filter.mp h).1

theorem cleanArgs_nodup (cfg : GoConfig) (fs : FS)
    (hnd : (fsPaths fs).Nodup) : (cleanArgs cfg fs).Nodup := by
  obtain ⟨hkeys, _, _⟩ := buildGroups_spec cfg (fsPaths fs)
  unfold cleanArgs
  rw [List.nodup_append]
  refine ⟨?_, hnd.filter _, ?_⟩
  · exact flatMap_losers_nodup cfg _ hkeys
      (fun g hg =>
        ⟨(bucket_facts cfg (fsPaths fs) hnd g hg).1,
         (bucket_facts cfg (fsPaths fs) hnd g hg).2.1⟩)
  · intro x hx hx'
    obtain ⟨g, hg, hxg⟩ := List.mem_flatMap.mp hx
    have hkeep := ((bucket_facts cfg (fsPaths fs) hnd g hg).2.2 x
      (mem_losersOf cfg g x hxg)).2
    have := (List.mem_filter.mp hx').2
    rw [hkeep] at this
    cases this

theorem group_split (cfg : GoConfig) (g : FPath × List FPath) (hne : g.2 ≠ []) :
    ∃ s, s ∈ g.2 ∧ (∀ m ∈ g.2, m ≠ s → m ∈ losersOf cfg g) ∧
      (g.2.Nodup → s ∉ losersOf cfg g) := by
  obtain ⟨k, gb⟩ := g
  match gb with
  | [] => exact absurd rfl hne
  | [f'] =>
    refine ⟨f', List.mem_singleton.mpr rfl, ?_, ?_⟩
    · intro m hm hms
      exact absurd (List.mem_singleton.mp hm) hms
    · intro _
      simp [losersOf]
  | f₀ :: f₁ :: fr =>
    cases hps : prioSort cfg (f₀ :: f₁ :: fr) with
    | nil =>
      have := prioSort_perm cfg (f₀ :: f₁ :: fr)
      rw [hps] at this
      have := this.length_eq
      simp at this
    | cons kp rest =>
      have hperm := prioSort_perm cfg (f₀ :: f₁ :: fr)
      rw [hps] at hperm
      have hloser : losersOf cfg (k, f₀ :: f₁ :: fr) = rest := by
        show (match prioSort cfg (f₀ :: f₁ :: fr) with
          | [] => ([] : List FPath) | _ :: rest => rest) = rest
        rw [hps]
      refine ⟨kp, hperm.mem_iff.mp (List.mem_cons_self kp rest), ?_, ?_⟩
      · intro m hm hms
        rw [hloser]
        rcases List.mem_cons.mp (hperm.mem_iff.mpr hm) with h | h
        · exact absurd h hms
        · exact h
      · intro hnd
        rw [hloser]
        have : (kp :: rest).Nodup := hperm.nodup_iff.mpr hnd
        exact (List.nodup_cons.mp this).1

/-- C3: for every group of keep-eligible files sharing a `(directory, base
name)` key, after `cleanDirectory` exactly one member (the survivor) remains
at its original path, and every other member's file still exists — same
identity, relocated, not deleted — under that directory's `.remove`
subdirectory, at a path different from its original one. -/
theorem C3_theorem (cfg : GoConfig) (fs : FS) (hnd : (fsPaths fs).Nodup) :
    ∀ g ∈ buildGroups cfg (fsPaths fs),
      ∃ s, s ∈ g.2 ∧
        (∀ e ∈ fs, e.path = s → e ∈ (cleanDirectory cfg fs).2) ∧
        ∀ m ∈ g.2, m ≠ s →
          ∀ e ∈ fs, e.path = m →
            ∃ e' ∈ (cleanDirectory cfg fs).2, e'.fid = e.fid ∧
              e'.path.dir = g.1.dir ++ [removeComp] ∧ e'.path ≠ m := by
  intro g hg
  obtain ⟨hkeys, hbuck, _⟩ := buildGroups_spec cfg (fsPaths fs)
  have hfacts := bucket_facts cfg (fsPaths fs) hnd g hg
  obtain ⟨s, hs, hlos, hsnot⟩ := group_split cfg g (hbuck g hg).2
  have hsdir : ∀ m ∈ g.2, m.dir = g.1.dir := by
    intro m hm
    have := hfacts.2.1 m hm
    exact congrArg FPath.dir this ▸ rfl
  refine ⟨s, hs, ?_, ?_⟩
  · intro e he hep
    rw [cleanDirectory_eq]
    apply moveFold_untouched _ _ e he
    rw [hep]
    intro hcon
    rcases List.mem_append.mp hcon with h | h
    · obtain ⟨g', hg', hsg'⟩ := List.mem_flatMap.mp h
      have hsg'2 := mem_losersOf cfg g' s hsg'
      have hk1 : groupKey s = g.1 := hfacts.2.1 s hs
      have hk2 : groupKey s = g'.1 :=
        (bucket_facts cfg (fsPaths fs) hnd g' hg').2.1 s hsg'2
      have hgg : g = g' := by
        apply List.inj_on_of_nodup_map hkeys hg hg'
        rw [← hk1, ← hk2]
      rw [← hgg] at hsg'
      exact hsnot hfacts.1 hsg'
    · have hkeep := (hfacts.2.2 s hs).2
      have := (List.mem_filter.mp h).2
      rw [hkeep] at this
      cases this
  · intro m hm hms e he hep
    rw [cleanDirectory_eq]
    have hmarg : m ∈ cleanArgs cfg fs :=
      List.mem_append_left _ (List.mem_flatMap.mpr ⟨g, hg, hlos m hm hms⟩)
    obtain ⟨nm, hnm⟩ := moveFold_moved (cleanArgs cfg fs) fs e hnd
      (cleanArgs_nodup cfg fs hnd) (cleanArgs_sub cfg fs hnd) he
      (by rw [hep]; exact hmarg)
    refine ⟨⟨e.fid, ⟨e.path.dir ++ [removeComp], nm⟩⟩, hnm, rfl, ?_, ?_⟩
    · show e.path.dir ++ [removeComp] = g.1.dir ++ [removeComp]
      rw [hep, hsdir m hm]
    · intro hcon
      have hdir := congrArg FPath.dir hcon
      have := congrArg List.length hdir
      rw [hep] at this
      simp at this

/-- An ASCII uppercase letter (`A`–`Z`). -/
def isUpperAscii (c : Char) : Bool := 65 ≤ c.toNat && c.toNat ≤ 90

theorem toLower_not_upper (c : Char) : isUpperAscii (Char.toLower c) = false := by
  unfold Char.toLower
  by_cases h : c.toNat ≥ 65 ∧ c.toNat ≤ 90
  · rw [if_pos h]
    obtain ⟨h1, h2⟩ := h
    set n := c.toNat with hn
    interval_cases n <;> decide
  · rw [if_neg h]
    simp only [isUpperAscii]
    rw [Bool.and_eq_false_iff]
    by_cases h1 : 65 ≤ c.toNat
    · right
      simp only [decide_eq_false_iff_not]
      omega
    · left
      simp only [decide_eq_false_iff_not]
      omega

theorem toLower_eq_dot (c : Char) : Char.toLower c = '.' → c = '.' := by
  unfold Char.toLower
  by_cases h : c.toNat ≥ 65 ∧ c.toNat ≤ 90
  · rw [if_pos h]
    obtain ⟨h1, h2⟩ := h
    intro hcon
    exfalso
    set n := c.toNat with hn
    interval_cases n <;> exact absurd hcon (by decide)
  · rw [if_neg h]
    exact fun h => h

theorem goToLower_no_upper (s : List Char) :
    ∀ c ∈ goToLower s, isUpperAscii c = false := by
  intro c hc
  obtain ⟨c', _, rfl⟩ := List.mem_map.mp hc
  exact toLower_not_upper c'

theorem goToLower_no_dot (s : List Char) (h : '.' ∉ s) :
    '.' ∉ goToLower s := by
  intro hcon
  obtain ⟨c', hc', heq⟩ := List.mem_map.mp hcon
  exact h (toLower_eq_dot c' heq ▸ hc')

theorem findIdx?_lt {α : Type} (p : α → Bool) (l : List α) (i : Nat)
    (h : l.findIdx? p = some i) : i < l.length :=
  (List.findIdx?_eq_some_iff_findIdx_eq.mp h).1

theorem findIdx?_none_of_all {α : Type} (p : α → Bool) (l : List α)
    (h : ∀ a ∈ l, p a = false) : l.findIdx? p = none :=
  List.findIdx?_eq_none_iff.mpr h

def c7cfg : GoConfig := ⟨[], [gs "a", gs "A"]⟩

/-- C7 counterexample: with the configured `Priority = ["a", "A"]` (two
distinct entries), the rank of the second entry's dotted extension equals the
rank of the first (both resolve to index 0 after lowercasing), so
`rank(A) < rank(B)` fails for distinct configured entries. -/
theorem C7_counterexample :
    c7cfg.Priority = [gs "a", gs "A"] ∧ gs "a" ≠ gs "A" ∧
      getFilePriority c7cfg ('.' :: gs "a") = 0 ∧
      getFilePriority c7cfg ('.' :: gs "A") = 0 ∧
      ¬(getFilePriority c7cfg ('.' :: gs "a") <
        getFilePriority c7cfg ('.' :: gs "A")) := by
  refine ⟨rfl, by decide, by decide, by decide, by decide⟩

/-- C7 (amended): `getFilePriority` is total and deterministic; for every
extension string it returns a value between `0` and `len(Priority)`
inclusive; an extension matching no dotted `Priority` entry receives exactly
`len(Priority)`; and for `Priority = [A, B]` with distinct entries *written in
lowercase* (as the counterexample `["a", "A"]` forces), `rank(A) = 0 <
1 = rank(B)`. -/
theorem C7_theorem (cfg : GoConfig) (ext : List Char) :
    getFilePriority cfg ext ≤ cfg.Priority.length ∧
      ((∀ p ∈ cfg.Priority, '.' :: p ≠ goToLower ext) →
        getFilePriority cfg ext = cfg.Priority.length) ∧
      (∀ A B : List Char, cfg.Priority = [A, B] → A ≠ B →
        goToLower A = A → goToLower B = B →
        getFilePriority cfg ('.' :: A) = 0 ∧
          getFilePriority cfg ('.' :: B) = 1) := by
  have hred : ∀ x : List Char, getFilePriority cfg x =
      match List.findIdx? (fun p => decide ('.' :: p = goToLower x)) cfg.Priority with
      | some i => i
      | none => cfg.Priority.length := fun _ => rfl
  refine ⟨?_, ?_, ?_⟩
  · rw [hred ext]
    cases hf : List.findIdx? (fun p => decide ('.' :: p = goToLower ext)) cfg.Priority with
    | none => exact Nat.le_refl _
    | some i => exact Nat.le_of_lt (findIdx?_lt _ _ _ hf)
  · intro h
    rw [hred ext, findIdx?_none_of_all _ _ (by
      intro a ha
      simp only [decide_eq_false_iff_not]
      exact h a ha)]
  · intro A B hP hAB hA hB
    have hdot : Char.toLower '.' = '.' := by decide
    have hlowA : goToLower ('.' :: A) = '.' :: A := by
      show ('.' :: A).map Char.toLower = '.' :: A
      rw [List.map_cons, hdot]
      show '.' :: goToLower A = '.' :: A
      rw [hA]
    have hlowB : goToLower ('.' :: B) = '.' :: B := by
      show ('.' :: B).map Char.toLower = '.' :: B
      rw [List.map_cons, hdot]
      show '.' :: goToLower B = '.' :: B
      rw [hB]
    constructor
    · rw [hred ('.' :: A), hlowA, hP]
      rw [List.findIdx?_cons, if_pos (by simp)]
    · rw [hred ('.' :: B), hlowB, hP]
      rw [List.findIdx?_cons, if_neg (by
        simp only [decide_eq_true_eq]
        intro hcon
        exact hAB (by injection hcon))]
      rw [List.findIdx?_cons, if_pos (by simp)]

/-- Witness for C7 at `Priority = ["pdf", "txt"]` and the unconfigured
extension `.doc`. -/
theorem C7_witness :
    getFilePriority ⟨[], [gs "pdf", gs "txt"]⟩ (gs ".doc") ≤ 2 ∧
      getFilePriority ⟨[], [gs "pdf", gs "txt"]⟩ (gs ".doc") = 2 ∧
      getFilePriority ⟨[], [gs "pdf", gs "txt"]⟩ ('.' :: gs "pdf") = 0 ∧
      getFilePriority ⟨[], [gs "pdf", gs "txt"]⟩ ('.' :: gs "txt") = 1 :=
  ⟨(C7_theorem ⟨[], [gs "pdf", gs "txt"]⟩ (gs ".doc")).1,
   (C7_theorem ⟨[], [gs "pdf", gs "txt"]⟩ (gs ".doc")).2.1 (by decide),
   ((C7_theorem ⟨[], [gs "pdf", gs "txt"]⟩ (gs ".doc")).2.2 (gs "pdf") (gs "txt")
     rfl (by decide) (by decide) (by decide)).1,
   ((C7_theorem ⟨[], [gs "pdf", gs "txt"]⟩ (gs ".doc")).2.2 (gs "pdf") (gs "txt")
     rfl (by decide) (by decide) (by decide)).2⟩

/-- C10: configuration entries are matched asymmetrically. (1) A
`KeepExtensions` entry containing an ASCII uppercase letter is never equal to
the normalized (dot-stripped, lowercased) form of any queried extension.
(2) A `KeepExtensions` entry with a leading dot is never equal to the
normalized form of any file extension (`goExt` output). (3) A `Priority`
entry with a leading dot never matches any file extension in
`getFilePriority`'s dotted comparison. (4) Concretely, with
`Priority = [".pdf"]` the extension `.pdf` ranks as absent
(`len(Priority) = 1`), and with `KeepExtensions = ["Pdf"]` the extension
`.pdf` is not kept. -/
theorem C10_theorem (cfg : GoConfig) :
    (∀ e ∈ cfg.KeepExtensions, (∃ c ∈ e, isUpperAscii c = true) →
      ∀ ext : List Char, goToLower (trimPrefixG ext (gs ".")) ≠ e) ∧
    (∀ e ∈ cfg.KeepExtensions, (∃ t, e = '.' :: t) →
      ∀ name : List Char,
        goToLower (trimPrefixG (goToLower (goExt name)) (gs ".")) ≠ e) ∧
    (∀ e ∈ cfg.Priority, (∃ t, e = '.' :: t) →
      ∀ name : List Char, '.' :: e ≠ goToLower (goExt name)) ∧
    getFilePriority ⟨[], [gs ".pdf"]⟩ (gs ".pdf") = 1 ∧
    isKeepExtension ⟨[gs "Pdf"], []⟩ (gs ".pdf") = false := by
  have hdot : Char.toLower '.' = '.' := by decide
  refine ⟨?_, ?_, ?_, by decide, by decide⟩
  · rintro e _ ⟨c, hc, hupper⟩ ext heq
    have := goToLower_no_upper (trimPrefixG ext (gs ".")) c (heq ▸ hc)
    rw [hupper] at this
    cases this
  · rintro e _ ⟨t, rfl⟩ name heq
    rcases goExt_cases name with ⟨hnil, _⟩ | ⟨stem', tail, hext, htail, _⟩
    · rw [hnil] at heq
      have : goToLower (trimPrefixG (goToLower []) (gs ".")) = [] := rfl
      rw [this] at heq
      cases heq
    · rw [hext] at heq
      have hxl : goToLower ('.' :: tail) = '.' :: goToLower tail := by
        show ('.' :: tail).map Char.toLower = _
        rw [List.map_cons, hdot]
        rfl
      rw [hxl] at heq
      have htrim : trimPrefixG ('.' :: goToLower tail) (gs ".") = goToLower tail := by
        unfold trimPrefixG
        rw [if_pos (by simp [gs, List.isPrefixOf])]
        rfl
      rw [htrim] at heq
      have hnodot : '.' ∉ goToLower (goToLower tail) :=
        goToLower_no_dot _ (goToLower_no_dot _ htail)
      exact hnodot (heq ▸ List.mem_cons_self '.' t)
  · rintro e _ ⟨t, rfl⟩ name heq
    rcases goExt_cases name with ⟨hnil, _⟩ | ⟨stem', tail, hext, htail, _⟩
    · rw [hnil] at heq
      cases heq
    · rw [hext] at heq
      have hxl : goToLower ('.' :: tail) = '.' :: goToLower tail := by
        show ('.' :: tail).map Char.toLower = _
        rw [List.map_cons, hdot]
        rfl
      rw [hxl] at heq
      have heq2 : '.' :: t = goToLower tail := by injection heq
      have : '.' ∈ goToLower tail := heq2 ▸ List.mem_cons_self '.' t
      exact goToLower_no_dot _ htail this

/-- Witness for C10: entry `"Pdf"` is not matched by the query `.pdf`, entry
`".pdf"` is matched by no real extension, and the dotted `Priority` entry
`".pdf"` never matches the extension of `a.pdf`. -/
theorem C10_witness :
    goToLower (trimPrefixG (gs ".pdf") (gs ".")) ≠ gs "Pdf" ∧
      goToLower (trimPrefixG (goToLower (goExt (gs "a.pdf"))) (gs ".")) ≠ gs ".pdf" ∧
      '.' :: gs ".pdf" ≠ goToLower (goExt (gs "a.pdf")) :=
  ⟨(C10_theorem ⟨[gs "Pdf"], [gs ".pdf"]⟩).1 (gs "Pdf") (by decide)
      ⟨'P', by decide, by decide⟩ (gs ".pdf"),
   (C10_theorem ⟨[gs ".pdf"], [gs ".pdf"]⟩).2.1 (gs ".pdf") (by decide)
      ⟨gs "pdf", by decide⟩ (gs "a.pdf"),
   (C10_theorem ⟨[gs ".pdf"], [gs ".pdf"]⟩).2.2.1 (gs ".pdf") (by decide)
      ⟨gs "pdf", by decide⟩ (gs "a.pdf")⟩

/-- C1 counterexample: on a tree with the group `{root/a.pdf, root/a.txt}`
(both keep-eligible, pdf ranked first) plus the non-keep file `root/b.bin`,
the code relocates two files (`a.txt` in step 4 and `b.bin` in step 5) but
returns `KeptFiles = 2` and `RemovedFiles = 1`; the claim predicts kept = 1
(one group survivor, no singletons) and removed = 2 (everything relocated). -/
theorem C1_counterexample :
    (cleanDirectory exCfg exFS).1 = ⟨3, 2, 1, true⟩ ∧
      (cleanDirectory exCfg exFS).2 =
        [⟨0, ⟨[gs "root"], gs "a.pdf"⟩⟩,
         ⟨1, ⟨[gs "root", gs ".remove"], gs "a.txt"⟩⟩,
         ⟨2, ⟨[gs "root", gs ".remove"], gs "b.bin"⟩⟩] ∧
      ¬((cleanDirectory exCfg exFS).1.RemovedFiles = 2 ∧
        (cleanDirectory exCfg exFS).1.KeptFiles = 1) := by
  refine ⟨by decide, by decide, by decide⟩

/-- C1 (amended): the statistics returned by `cleanDirectory` satisfy: total
equals the number of regular files enumerated; kept equals total minus the
number of non-keep-eligible files — i.e. every keep-eligible file counts as
kept, including group losers relocated in step 4; and removed equals the
number of non-keep-eligible files relocated in step 5 only. -/
theorem C1_theorem (cfg : GoConfig) (fs : FS) :
    (cleanDirectory cfg fs).1 =
      ⟨fs.length,
       fs.length - (fsPaths fs).countP (fun f => !keepEligible cfg f),
       (fsPaths fs).countP (fun f => !keepEligible cfg f), true⟩ := by
  rw [cleanDirectory_eq]

/-- C2: the claim (re-running the Cleaner on an already-cleaned tree performs
zero relocations and reports removed = 0) is violated by the code: with
`KeepExtensions = ["pdf"]`, a tree `root/a.pdf`, `root/b.bin` is cleaned to
move `b.bin` into `root/.remove`; a second run re-enumerates
`root/.remove/b.bin`, relocates it again into `root/.remove/.remove/b.bin`,
and reports `RemovedFiles = 1`, not 0. -/
theorem C2_theorem :
    (cleanDirectory exCfg2 exFS2).1 = ⟨2, 1, 1, true⟩ ∧
      (cleanDirectory exCfg2 exFS2).2 =
        [⟨0, ⟨[gs "root"], gs "a.pdf"⟩⟩,
         ⟨1, ⟨[gs "root", gs ".remove"], gs "b.bin"⟩⟩] ∧
      (cleanDirectory exCfg2 (walkOrder (cleanDirectory exCfg2 exFS2).2)).1 =
        ⟨2, 1, 1, true⟩ ∧
      (cleanDirectory exCfg2 (walkOrder (cleanDirectory exCfg2 exFS2).2)).2 =
        [⟨1, ⟨[gs "root", gs ".remove", gs ".remove"], gs "b.bin"⟩⟩,
         ⟨0, ⟨[gs "root"], gs "a.pdf"⟩⟩] ∧
      (cleanDirectory exCfg2 (walkOrder (cleanDirectory exCfg2 exFS2).2)).1.RemovedFiles
        ≠ 0 := by
  refine ⟨by decide, by decide, by decide, by decide, by decide⟩

/-- C6 counterexample: with `Priority = ["pdf"]`, the group
`[d/a.txt, d/a.doc, d/a.pdf]` has a priority tie between `a.txt` (first seen)
and `a.doc` (both rank 1 = unconfigured), yet the step-4 exchange sort
returns `[a.pdf, a.doc, a.txt]` — the tied members are NOT in first-seen
order, so the sort is not stable as the claim states. -/
theorem C6_counterexample :
    exG6 = [⟨[gs "d"], gs "a.txt"⟩, ⟨[gs "d"], gs "a.doc"⟩, ⟨[gs "d"], gs "a.pdf"⟩] ∧
      pri exCfg6 ⟨[gs "d"], gs "a.txt"⟩ = 1 ∧
      pri exCfg6 ⟨[gs "d"], gs "a.doc"⟩ = 1 ∧
      prioSort exCfg6 exG6 =
        [⟨[gs "d"], gs "a.pdf"⟩, ⟨[gs "d"], gs "a.doc"⟩, ⟨[gs "d"], gs "a.txt"⟩] := by
  refine ⟨rfl, by decide, by decide, by decide⟩

/-- C6 (amended): each multi-member group is sorted by `getFilePriority`
ascending — the result is a permutation of the group, pairwise sorted — and
its first member is a first-seen member of minimal priority; that first
member is kept (marked processed, never relocated) and every other member is
relocated, in sorted order. Ties among the remaining members need not
preserve first-seen order (the exchange sort is not stable; see the
counterexample). -/
theorem C6_theorem (cfg : GoConfig) (f₀ f₁ : FPath) (fr : List FPath) :
    ∃ hd tl, prioSort cfg (f₀ :: f₁ :: fr) = hd :: tl ∧
      List.Perm (hd :: tl) (f₀ :: f₁ :: fr) ∧
      (hd :: tl).Pairwise (fun a b => pri cfg a ≤ pri cfg b) ∧
      (∃ i, FirstMinAt cfg (f₀ :: f₁ :: fr) hd i) ∧
      ∀ (acc : List FPath × FS) (k : FPath),
        processGroup cfg acc (k, f₀ :: f₁ :: fr) =
          (acc.1 ++ hd :: tl, tl.foldl moveToRemove acc.2) := by
  have hsort : prioSort cfg (f₀ :: f₁ :: fr) =
      (selPass cfg f₀ (f₁ :: fr)).1 ::
        sortSelN cfg fr.length (selPass cfg f₀ (f₁ :: fr)).2 := by
    rw [prioSort_eq]
    have hlen : (f₀ :: f₁ :: fr).length - 1 = fr.length + 1 := by
      simp only [List.length_cons]
      omega
    rw [hlen]
    rfl
  refine ⟨(selPass cfg f₀ (f₁ :: fr)).1,
    sortSelN cfg fr.length (selPass cfg f₀ (f₁ :: fr)).2, hsort, ?_, ?_, ?_, ?_⟩
  · rw [← hsort]
    exact prioSort_perm cfg _
  · rw [← hsort, prioSort_eq]
    apply sortSelN_sorted
    simp
  · exact selPass_firstMin cfg (f₁ :: fr) f₀
  · intro acc k
    rw [processGroup_eq]
    have hk : keepsOf cfg (k, f₀ :: f₁ :: fr) =
        (selPass cfg f₀ (f₁ :: fr)).1 ::
          sortSelN cfg fr.length (selPass cfg f₀ (f₁ :: fr)).2 := by
      show (match prioSort cfg (f₀ :: f₁ :: fr) with
        | [] => ([] : List FPath) | keep :: rest => keep :: rest) = _
      rw [hsort]
    have hl : losersOf cfg (k, f₀ :: f₁ :: fr) =
        sortSelN cfg fr.length (selPass cfg f₀ (f₁ :: fr)).2 := by
      show (match prioSort cfg (f₀ :: f₁ :: fr) with
        | [] => ([] : List FPath) | _ :: rest => rest) = _
      rw [hsort]
    rw [hk, hl]

/-- C8: `moveToRemove`'s collision probing. General part: for every state and
source path, the probe returns some candidate `name`, `name_1`, `name_2`, …
whose every earlier candidate is occupied and which is itself free — so a
relocation never replaces an existing file — the moved entry lands at that
fresh name under `.remove`, and all other entries are untouched. Concrete
part: relocating `x/a.bin` when `x/.remove/a.bin` already exists yields both
`x/.remove/a.bin` and `x/.remove/a_1.bin`. -/
theorem C8_theorem :
    (∀ (fs : FS) (p : FPath),
      ∃ k, probe fs (p.dir ++ [removeComp]) p.name = candName p.name k ∧
        (⟨p.dir ++ [removeComp], candName p.name k⟩ : FPath) ∉ fsPaths fs ∧
        (∀ j, j < k →
          (⟨p.dir ++ [removeComp], candName p.name j⟩ : FPath) ∈ fsPaths fs) ∧
        (∀ e ∈ fs, e.path = p →
          (⟨e.fid, ⟨p.dir ++ [removeComp], candName p.name k⟩⟩ : FileEntry) ∈
            moveToRemove fs p) ∧
        (∀ e ∈ fs, e.path ≠ p → e ∈ moveToRemove fs p)) ∧
    moveToRemove
        [⟨0, ⟨[gs "x", gs ".remove"], gs "a.bin"⟩⟩, ⟨1, ⟨[gs "x"], gs "a.bin"⟩⟩]
        ⟨[gs "x"], gs "a.bin"⟩ =
      [⟨0, ⟨[gs "x", gs ".remove"], gs "a.bin"⟩⟩,
       ⟨1, ⟨[gs "x", gs ".remove"], gs "a_1.bin"⟩⟩] := by
  constructor
  · intro fs p
    obtain ⟨k, hk, hfree, hocc⟩ := probe_spec fs (p.dir ++ [removeComp]) p.name
    refine ⟨k, hk, ?_, ?_, ?_, ?_⟩
    · intro hmem
      have := (occupied_iff fs _).mpr hmem
      rw [hfree] at this
      cases this
    · intro j hj
      exact (occupied_iff fs _).mp (hocc j hj)
    · intro e he hep
      have := mem_moveToRemove_of_eq fs p e he hep
      unfold destOf at this
      rw [hk] at this
      exact this
    · intro e he hne
      exact mem_moveToRemove_of_ne fs p e he hne
  · decide

/-- Witness for C8 at the two-file collision state. -/
theorem C8_witness :
    ∃ k, probe [⟨0, ⟨[gs "x", gs ".remove"], gs "a.bin"⟩⟩,
        ⟨1, ⟨[gs "x"], gs "a.bin"⟩⟩]
        ((⟨[gs "x"], gs "a.bin"⟩ : FPath).dir ++ [removeComp])
        (⟨[gs "x"], gs "a.bin"⟩ : FPath).name = candName (gs "a.bin") k ∧
      (⟨[gs "x", gs ".remove"], candName (gs "a.bin") k⟩ : FPath) ∉
        fsPaths [⟨0, ⟨[gs "x", gs ".remove"], gs "a.bin"⟩⟩,
          ⟨1, ⟨[gs "x"], gs "a.bin"⟩⟩] ∧
      (∀ j, j < k →
        (⟨[gs "x", gs ".remove"], candName (gs "a.bin") j⟩ : FPath) ∈
          fsPaths [⟨0, ⟨[gs "x", gs ".remove"], gs "a.bin"⟩⟩,
            ⟨1, ⟨[gs "x"], gs "a.bin"⟩⟩]) ∧
      (∀ e ∈ [⟨0, ⟨[gs "x", gs ".remove"], gs "a.bin"⟩⟩,
          (⟨1, ⟨[gs "x"], gs "a.bin"⟩⟩ : FileEntry)], e.path = ⟨[gs "x"], gs "a.bin"⟩ →
        (⟨e.fid, ⟨[gs "x", gs ".remove"], candName (gs "a.bin") k⟩⟩ : FileEntry) ∈
          moveToRemove [⟨0, ⟨[gs "x", gs ".remove"], gs "a.bin"⟩⟩,
            ⟨1, ⟨[gs "x"], gs "a.bin"⟩⟩] ⟨[gs "x"], gs "a.bin"⟩) ∧
      (∀ e ∈ [⟨0, ⟨[gs "x", gs ".remove"], gs "a.bin"⟩⟩,
          (⟨1, ⟨[gs "x"], gs "a.bin"⟩⟩ : FileEntry)], e.path ≠ ⟨[gs "x"], gs "a.bin"⟩ →
        e ∈ moveToRemove [⟨0, ⟨[gs "x", gs ".remove"], gs "a.bin"⟩⟩,
          ⟨1, ⟨[gs "x"], gs "a.bin"⟩⟩] ⟨[gs "x"], gs "a.bin"⟩) :=
  C8_theorem.1
    [⟨0, ⟨[gs "x", gs ".remove"], gs "a.bin"⟩⟩, ⟨1, ⟨[gs "x"], gs "a.bin"⟩⟩]
    ⟨[gs "x"], gs "a.bin"⟩

/-- Witness for C3 at the tree `root/a.pdf`, `root/a.txt`, `root/b.bin` with
`KeepExtensions = Priority = ["pdf", "txt"]`. -/
theorem C3_witness :
    (fsPaths exFS).Nodup ∧
      ((⟨⟨[gs "root"], gs "a"⟩,
          [⟨[gs "root"], gs "a.pdf"⟩, ⟨[gs "root"], gs "a.txt"⟩]⟩ :
          FPath × List FPath) ∈ buildGroups exCfg (fsPaths exFS)) ∧
      (∃ s, s ∈ [⟨[gs "root"], gs "a.pdf"⟩, (⟨[gs "root"], gs "a.txt"⟩ : FPath)] ∧
        (∀ e ∈ exFS, e.path = s → e ∈ (cleanDirectory exCfg exFS).2) ∧
        ∀ m ∈ [⟨[gs "root"], gs "a.pdf"⟩, (⟨[gs "root"], gs "a.txt"⟩ : FPath)],
          m ≠ s →
          ∀ e ∈ exFS, e.path = m →
            ∃ e' ∈ (cleanDirectory exCfg exFS).2, e'.fid = e.fid ∧
              e'.path.dir = [gs "root"] ++ [removeComp] ∧ e'.path ≠ m) :=
  ⟨by decide, by decide,
   C3_theorem exCfg exFS (by decide)
     ⟨⟨[gs "root"], gs "a"⟩, [⟨[gs "root"], gs "a.pdf"⟩, ⟨[gs "root"], gs "a.txt"⟩]⟩
     (by decide)⟩

/-- One `os.ReadDir` entry, reduced to what `dirExistsAndHasContent`
inspects. -/
structure GoDirEntry where
  isDir : Bool
deriving DecidableEq, Repr

/-- One `os.Stat` result, reduced to what `dirExistsAndHasContent`
inspects. -/
structure StatInfo where
  isDir : Bool
deriving DecidableEq, Repr

/-- The file-system observations `dirExistsAndHasContent` makes about one
directory: the `os.Stat` result (`none` = error, i.e. the path does not
exist) and the `os.ReadDir` result (`none` = read error). -/
structure DirView where
  stat : Option StatInfo
  readDir : Option (List GoDirEntry)
deriving DecidableEq, Repr

/-- `dirExistsAndHasContent` from `src/unnamed/part_000`: stat must succeed
with a directory, the top-level read must succeed, and the count of
non-directory entries must be positive. -/
def dirExistsAndHasContent (v : DirView) : Bool :=
  match v.stat with
  | none => false
  | some info =>
    if !info.isDir then false
    else
      match v.readDir with
      | none => false
      | some entries => decide (0 < entries.countP (fun e => !e.isDir))

theorem dirExistsAndHasContent_iff (v : DirView) :
    dirExistsAndHasContent v = true ↔
      ∃ info, v.stat = some info ∧ info.isDir = true ∧
        ∃ es, v.readDir = some es ∧ 0 < es.countP (fun e => !e.isDir) := by
  unfold dirExistsAndHasContent
  cases hs : v.stat with
  | none => simp
  | some info =>
    cases hd : info.isDir with
    | false => simp [hd]
    | true =>
      cases hr : v.readDir with
      | none => simp [hd, hr]
      | some es => simp [hd, hr]

/-- The expected extraction directory of an archive: the archive path with
its extension stripped (`strings.TrimSuffix(archivePath,
filepath.Ext(archivePath))` in `src/archive.go`). -/
def extractDirOf (archivePath : FPath) : FPath :=
  ⟨archivePath.dir, trimSuffixG archivePath.name (goExt archivePath.name)⟩

/-- `ManifestEntry` from `src/unnamed/part_003`. Absolute-path resolution is
modelled as the identity (paths in the model are already absolute). -/
structure ManifestEntry where
  Filename : List Char
  Filepath : FPath
  SourceArchiveName : List Char
  SourceArchivePath : FPath
deriving DecidableEq, Repr

/-- The post-cleanup re-walk of `processArchive`: one manifest entry per
remaining regular file, in walk order. -/
def collectManifest (archivePath : FPath) (fs : FS) : List ManifestEntry :=
  (walkOrder fs).map (fun e =>
    { Filename := e.path.name, Filepath := e.path,
      SourceArchiveName := archivePath.name, SourceArchivePath := archivePath })

/-- Environment of one `processArchive` call: `view0` is the `DirView` of the
expected extraction directory at the initial check and `files0` the regular
files under it then; `mkdirOk` is the `os.MkdirAll` outcome; `extractErr` is
whether the dispatched extractor (zip/rar/iso; a no-op success for any other
extension) returned an error; `view1`/`files1` describe the directory after
the extraction attempt. -/
structure PAEnv where
  view0 : DirView
  files0 : FS
  mkdirOk : Bool
  extractErr : Bool
  view1 : DirView
  files1 : FS

/-- Observable outcome of `processArchive`: the Go function returns only the
manifest entries; the other fields record which control-flow path was taken
(they are determined by the branch structure of `src/archive.go`). -/
structure PAResult where
  alreadyExtracted : Bool
  extractionAttempted : Bool
  cleaned : Option ProcessStats
  entries : List ManifestEntry
deriving DecidableEq, Repr

/-- `processArchive` from `src/archive.go` (control flow; extractors and
loggers abstracted into `PAEnv`). -/
def processArchive (cfg : GoConfig) (archivePath : FPath) (env : PAEnv) : PAResult :=
  if dirExistsAndHasContent env.view0 then
    let r := cleanDirectory cfg env.files0
    { alreadyExtracted := true, extractionAttempted := false,
      cleaned := some r.1, entries := collectManifest archivePath r.2 }
  else if !env.mkdirOk then
    { alreadyExtracted := false, extractionAttempted := false,
      cleaned := none, entries := [] }
  else if env.extractErr then
    if dirExistsAndHasContent env.view1 then
      let r := cleanDirectory cfg env.files1
      { alreadyExtracted := false, extractionAttempted := true,
        cleaned := some r.1, entries := collectManifest archivePath r.2 }
    else
      { alreadyExtracted := false, extractionAttempted := true,
        cleaned := none, entries := [] }
  else
    let r := cleanDirectory cfg env.files1
    { alreadyExtracted := false, extractionAttempted := true,
      cleaned := some r.1, entries := collectManifest archivePath r.2 }

/-- C4: `processArchive` treats an archive as already extracted iff the
expected extraction directory stats as an existing directory and its
top-level read yields at least one non-directory entry; in that case no
extraction is attempted and cleanup runs directly on the existing contents.
In particular, a directory whose only top-level entry is a subdirectory
(and no top-level regular file) is NOT treated as already extracted. -/
theorem C4_theorem (cfg : GoConfig) (archivePath : FPath) (env : PAEnv) :
    ((processArchive cfg archivePath env).alreadyExtracted = true ↔
      (∃ info, env.view0.stat = some info ∧ info.isDir = true ∧
        ∃ es, env.view0.readDir = some es ∧ 0 < es.countP (fun e => !e.isDir))) ∧
    ((processArchive cfg archivePath env).alreadyExtracted = true →
      (processArchive cfg archivePath env).extractionAttempted = false ∧
      (processArchive cfg archivePath env).cleaned =
        some (cleanDirectory cfg env.files0).1 ∧
      (processArchive cfg archivePath env).entries =
        collectManifest archivePath (cleanDirectory cfg env.files0).2) ∧
    dirExistsAndHasContent ⟨some ⟨true⟩, some [⟨true⟩]⟩ = false := by
  by_cases h : dirExistsAndHasContent env.view0 = true
  · refine ⟨?_, ?_, by decide⟩
    · rw [← dirExistsAndHasContent_iff]
      simp [processArchive, h]
    · intro _
      refine ⟨?_, ?_, ?_⟩ <;> simp [processArchive, h]
  · have hfalse : dirExistsAndHasContent env.view0 = false := by
      cases hv : dirExistsAndHasContent env.view0 with
      | true => exact absurd hv h
      | false => rfl
    refine ⟨?_, ?_, by decide⟩
    · rw [← dirExistsAndHasContent_iff]
      constructor
      · intro hcon
        exfalso
        revert hcon
        simp [processArchive, hfalse]
        by_cases hm : env.mkdirOk <;> by_cases he : env.extractErr <;>
          by_cases h1 : dirExistsAndHasContent env.view1 <;>
            simp [hm, he, h1]
      · intro hcon
        rw [hcon] at hfalse
        cases hfalse
    · intro hcon
      exfalso
      revert hcon
      simp [processArchive, hfalse]
      by_cases hm : env.mkdirOk <;> by_cases he : env.extractErr <;>
        by_cases h1 : dirExistsAndHasContent env.view1 <;>
          simp [hm, he, h1]

/-- Witness for C4 at an environment whose extraction directory exists with
one top-level regular file. -/
theorem C4_witness :
    (processArchive exCfg ⟨[], gs "a.zip"⟩
        ⟨⟨some ⟨true⟩, some [⟨false⟩]⟩, exFS, true, false, ⟨none, none⟩, []⟩).alreadyExtracted
      = true ∧
    (processArchive exCfg ⟨[], gs "a.zip"⟩
        ⟨⟨some ⟨true⟩, some [⟨false⟩]⟩, exFS, true, false, ⟨none, none⟩, []⟩).extractionAttempted
      = false ∧
    (processArchive exCfg ⟨[], gs "a.zip"⟩
        ⟨⟨some ⟨true⟩, some [⟨false⟩]⟩, exFS, true, false, ⟨none, none⟩, []⟩).cleaned =
      some (cleanDirectory exCfg exFS).1 ∧
    (processArchive exCfg ⟨[], gs "a.zip"⟩
        ⟨⟨some ⟨true⟩, some [⟨false⟩]⟩, exFS, true, false, ⟨none, none⟩, []⟩).entries =
      collectManifest ⟨[], gs "a.zip"⟩ (cleanDirectory exCfg exFS).2 ∧
    dirExistsAndHasContent ⟨some ⟨true⟩, some [⟨true⟩]⟩ = false := by
  have h := C4_theorem exCfg ⟨[], gs "a.zip"⟩
    ⟨⟨some ⟨true⟩, some [⟨false⟩]⟩, exFS, true, false, ⟨none, none⟩, []⟩
  have h1 : (processArchive exCfg ⟨[], gs "a.zip"⟩
      ⟨⟨some ⟨true⟩, some [⟨false⟩]⟩, exFS, true, false, ⟨none, none⟩, []⟩).alreadyExtracted
      = true :=
    h.1.mpr ⟨⟨true⟩, rfl, rfl, [⟨false⟩], rfl, by decide⟩
  exact ⟨h1, (h.2.1 h1).1, (h.2.1 h1).2.1, (h.2.1 h1).2.2, h.2.2⟩

/-- C5: when the archive is not already extracted, the directory is created
and extraction fails, `processArchive` re-checks the extraction directory:
if the re-check finds top-level non-directory content, cleanup still runs on
the files now present and the manifest entries are built from the survivors
(recoverable); if not, the result is the empty entry list with no cleanup
(unrecoverable). In both cases the function returns normally — the
extraction error never aborts the batch. -/
theorem C5_theorem (cfg : GoConfig) (archivePath : FPath) (env : PAEnv)
    (h0 : dirExistsAndHasContent env.view0 = false)
    (hmk : env.mkdirOk = true)
    (herr : env.extractErr = true) :
    (dirExistsAndHasContent env.view1 = true →
      (processArchive cfg archivePath env).cleaned =
        some (cleanDirectory cfg env.files1).1 ∧
      (processArchive cfg archivePath env).entries =
        collectManifest archivePath (cleanDirectory cfg env.files1).2) ∧
    (dirExistsAndHasContent env.view1 = false →
      (processArchive cfg archivePath env).cleaned = none ∧
      (processArchive cfg archivePath env).entries = []) := by
  constructor
  · intro h1
    constructor <;> simp [processArchive, h0, hmk, herr, h1]
  · intro h1
    constructor <;> simp [processArchive, h0, hmk, herr, h1]

/-- Witness for C5 at an environment where the directory did not pre-exist,
`MkdirAll` succeeded, extraction failed, and the re-check finds one
top-level regular file (the recoverable branch). -/
theorem C5_witness :
    (processArchive exCfg2 ⟨[], gs "b.zip"⟩
        ⟨⟨none, none⟩, [], true, true, ⟨some ⟨true⟩, some [⟨false⟩]⟩, exFS2⟩).cleaned =
      some (cleanDirectory exCfg2 exFS2).1 ∧
    (processArchive exCfg2 ⟨[], gs "b.zip"⟩
        ⟨⟨none, none⟩, [], true, true, ⟨some ⟨true⟩, some [⟨false⟩]⟩, exFS2⟩).entries =
      collectManifest ⟨[], gs "b.zip"⟩ (cleanDirectory exCfg2 exFS2).2 :=
  (C5_theorem exCfg2 ⟨[], gs "b.zip"⟩
      ⟨⟨none, none⟩, [], true, true, ⟨some ⟨true⟩, some [⟨false⟩]⟩, exFS2⟩
      (by decide) rfl rfl).1 (by decide)

/-- UTF-8 encoded length of one code point (what Go's byte-level `len`
counts per rune of a valid string). -/
def utf8Len (c : Char) : Nat :=
  if c.toNat < 0x80 then 1
  else if c.toNat < 0x800 then 2
  else if c.toNat < 0x10000 then 3
  else 4

/-- Go `len(s)` for a valid UTF-8 string modelled as its rune list. -/
def goStrByteLen (s : List Char) : Nat := (s.map utf8Len).sum

/-- The code point ranges of Go's `unicode.Han` table (Unicode Han script),
used by `isChineseChar`. -/
def hanRanges : List (Nat × Nat) :=
  [(0x2E80, 0x2E99), (0x2E9B, 0x2EF3), (0x2F00, 0x2FD5), (0x3005, 0x3005),
   (0x3007, 0x3007), (0x3021, 0x3029), (0x3038, 0x303B), (0x3400, 0x4DBF),
   (0x4E00, 0x9FFF), (0xF900, 0xFA6D), (0xFA70, 0xFAD9),
   (0x20000, 0x2A6DF), (0x2A700, 0x2B739), (0x2B740, 0x2B81D),
   (0x2B820, 0x2CEA1), (0x2CEB0, 0x2EBE0), (0x2EBF0, 0x2EE5D),
   (0x2F800, 0x2FA1D), (0x30000, 0x3134A), (0x31350, 0x323AF)]

/-- `isChineseChar` from `src/encoding.go`: `unicode.Is(unicode.Han, r)`. -/
def goIsHan (c : Char) : Bool :=
  hanRanges.any (fun r => decide (r.1 ≤ c.toNat) && decide (c.toNat ≤ r.2))

/-- The sixteen `garbledPatterns` literals of `src/encoding.go`, each a CJK
character followed by U+FFFD (the file stores them as UTF-8 text). -/
def garbledPatterns : List (List Char) :=
  [[Char.ofNat 0x951B, Char.ofNat 0xFFFD], [Char.ofNat 0x93C3, Char.ofNat 0xFFFD],
   [Char.ofNat 0x9A9E, Char.ofNat 0xFFFD], [Char.ofNat 0x93C8, Char.ofNat 0xFFFD],
   [Char.ofNat 0x9422, Char.ofNat 0xFFFD], [Char.ofNat 0x9356, Char.ofNat 0xFFFD],
   [Char.ofNat 0x9365, Char.ofNat 0xFFFD], [Char.ofNat 0x9365, Char.ofNat 0xFFFD],
   [Char.ofNat 0x752F, Char.ofNat 0xFFFD], [Char.ofNat 0x9422, Char.ofNat 0xFFFD],
   [Char.ofNat 0x9366, Char.ofNat 0xFFFD], [Char.ofNat 0x9356, Char.ofNat 0xFFFD],
   [Char.ofNat 0x9356, Char.ofNat 0xFFFD], [Char.ofNat 0x9357, Char.ofNat 0xFFFD],
   [Char.ofNat 0x95C2, Char.ofNat 0xFFFD], [Char.ofNat 0x95C2, Char.ofNat 0xFFFD]]

/-- `strings.Contains` on valid UTF-8 text (byte-level substring search
coincides with rune-level search because a UTF-8 lead byte never matches a
continuation byte). -/
def containsSub (s pat : List Char) : Bool :=
  (List.range (s.length + 1)).any (fun i => pat.isPrefixOf (s.drop i))

/-- `containsGarbled` from `src/encoding.go`. The float comparison
`float64(chineseCount)/float64(len([]rune(s))) > 0.8` is modelled by the
exact rational comparison `5 * chineseCount > 4 * runeCount`, which agrees
with the IEEE-754 computation for all counts below 2^50. `len(s) > 10`
counts UTF-8 bytes, `len([]rune(s))` counts runes. -/
def containsGarbled (s : List Char) : Bool :=
  if garbledPatterns.any (fun pattern => containsSub s pattern) then true
  else
    let chineseCount := s.countP goIsHan
    if goStrByteLen s > 10 ∧ 5 * chineseCount > 4 * s.length then true
    else false

/-- The GBK fallback attempt of `decodeChineseFilename`: use the GBK decode
when it succeeded and does not look garbled, else fall back to the original
string. -/
def tryGBK (name : List Char) (gbk : Option (List Char)) : List Char :=
  match gbk with
  | some d2 => if !containsGarbled d2 then d2 else name
  | none => name

/-- `decodeChineseFilename` from `src/encoding.go`. The GB18030 and GBK
decoders are third-party library functions (`golang.org/x/text`); the model
takes their outcomes as parameters: `valid` is `utf8.ValidString(name)` and
`gb`/`gbk` are the two decode results (`none` = decoder error). -/
def decodeChineseFilename (name : List Char) (valid : Bool)
    (gb gbk : Option (List Char)) : List Char :=
  if valid && !containsGarbled name then name
  else
    match gb with
    | some d => if !containsGarbled d then d else tryGBK name gbk
    | none => tryGBK name gbk

theorem decode_eq_of_valid (name : List Char) (valid : Bool)
    (gb gbk : Option (List Char)) (h : (valid && !containsGarbled name) = true) :
    decodeChineseFilename name valid gb gbk = name := by
  unfold decodeChineseFilename
  rw [if_pos h]

theorem decode_eq_some (name : List Char) (valid : Bool) (d : List Char)
    (gbk : Option (List Char)) (h : ¬(valid && !containsGarbled name) = true) :
    decodeChineseFilename name valid (some d) gbk =
      if !containsGarbled d then d else tryGBK name gbk := by
  unfold decodeChineseFilename
  rw [if_neg h]

theorem decode_eq_none (name : List Char) (valid : Bool)
    (gbk : Option (List Char)) (h : ¬(valid && !containsGarbled name) = true) :
    decodeChineseFilename name valid none gbk = tryGBK name gbk := by
  unfold decodeChineseFilename
  rw [if_neg h]

theorem tryGBK_result (name : List Char) (gbk : Option (List Char)) :
    tryGBK name gbk = name ∨
      ∃ d, gbk = some d ∧ tryGBK name gbk = d ∧ containsGarbled d = false := by
  cases gbk with
  | none => exact Or.inl rfl
  | some d2 =>
    by_cases hd : (!containsGarbled d2) = true
    · refine Or.inr ⟨d2, rfl, ?_, by simpa using hd⟩
      show (if !containsGarbled d2 then d2 else name) = d2
      rw [if_pos hd]
    · refine Or.inl ?_
      show (if !containsGarbled d2 then d2 else name) = name
      rw [if_neg hd]

def hanChar : Char := Char.ofNat 0x4E2D

/-- C9 counterexample: the four-character string `中中中中` (4 runes, 12
UTF-8 bytes, 100% Han) contains no mis-decode pattern and is NOT longer than
10 characters, so under the claim's condition (b) it would not look garbled;
the code nevertheless reports it garbled because `len(s)` counts bytes
(12 > 10), not characters. -/
theorem C9_counterexample :
    containsGarbled [hanChar, hanChar, hanChar, hanChar] = true ∧
      [hanChar, hanChar, hanChar, hanChar].length = 4 ∧
      ¬((4 : Nat) > 10) ∧
      garbledPatterns.all
        (fun pattern => !containsSub [hanChar, hanChar, hanChar, hanChar] pattern)
        = true ∧
      goStrByteLen [hanChar, hanChar, hanChar, hanChar] = 12 := by
  refine ⟨by decide, by decide, by decide, by decide, by decide⟩

/-- C9 (amended): `decodeChineseFilename` is total and never fails its
caller — its result is always the input, the GB18030 decode, or the GBK
decode; valid non-garbled input is returned unchanged; if both legacy
decodes fail or look garbled the original string is returned; and the
garbled heuristic holds exactly when a known mis-decode pattern occurs, OR
the proportion of Han characters strictly exceeds 80% and the UTF-8 *byte*
length (Go's `len(s)`) — not the character count — exceeds 10. -/
theorem C9_theorem (name : List Char) (valid : Bool) (gb gbk : Option (List Char)) :
    (decodeChineseFilename name valid gb gbk = name ∨
      (∃ d, gb = some d ∧ decodeChineseFilename name valid gb gbk = d) ∨
      (∃ d, gbk = some d ∧ decodeChineseFilename name valid gb gbk = d)) ∧
    (valid = true → containsGarbled name = false →
      decodeChineseFilename name valid gb gbk = name) ∧
    ((∀ d, gb = some d → containsGarbled d = true) →
     (∀ d, gbk = some d → containsGarbled d = true) →
      decodeChineseFilename name valid gb gbk = name) ∧
    (∀ s : List Char,
      containsGarbled s = true ↔
        ((∃ pattern ∈ garbledPatterns, containsSub s pattern = true) ∨
          (goStrByteLen s > 10 ∧ 5 * s.countP goIsHan > 4 * s.length))) := by
  refine ⟨?_, ?_, ?_, ?_⟩
  · by_cases h0 : (valid && !containsGarbled name) = true
    · exact Or.inl (decode_eq_of_valid name valid gb gbk h0)
    · cases gb with
      | some d =>
        rw [decode_eq_some name valid d gbk h0]
        by_cases hd : (!containsGarbled d) = true
        · rw [if_pos hd]
          exact Or.inr (Or.inl ⟨d, rfl, rfl⟩)
        · rw [if_neg hd]
          rcases tryGBK_result name gbk with h | ⟨d2, hg, he, _⟩
          · exact Or.inl h
          · exact Or.inr (Or.inr ⟨d2, hg, he⟩)
      | none =>
        rw [decode_eq_none name valid gbk h0]
        rcases tryGBK_result name gbk with h | ⟨d2, hg, he, _⟩
        · exact Or.inl h
        · exact Or.inr (Or.inr ⟨d2, hg, he⟩)
  · intro hv hg
    exact decode_eq_of_valid name valid gb gbk (by rw [hv, hg]; rfl)
  · intro hgb hgbk
    have htry : tryGBK name gbk = name := by
      rcases tryGBK_result name gbk with h | ⟨d2, hg, _, hne⟩
      · exact h
      · rw [hgbk d2 hg] at hne
        cases hne
    by_cases h0 : (valid && !containsGarbled name) = true
    · exact decode_eq_of_valid name valid gb gbk h0
    · cases hgb2 : gb with
      | some d =>
        rw [decode_eq_some name valid d gbk h0]
        rw [if_neg (by rw [hgb d hgb2]; simp), htry]
      | none =>
        rw [decode_eq_none name valid gbk h0, htry]
  · intro s
    unfold containsGarbled
    by_cases hp : garbledPatterns.any (fun pattern => containsSub s pattern) = true
    · rw [if_pos hp]
      simp only [true_iff]
      exact Or.inl (List.any_eq_true.mp hp)
    · rw [if_neg hp]
      by_cases hb : goStrByteLen s > 10 ∧ 5 * s.countP goIsHan > 4 * s.length
      · rw [if_pos hb]
        simp only [true_iff]
        exact Or.inr hb
      · rw [if_neg hb]
        constructor
        · intro hcon
          cases hcon
        · intro hcon
          rcases hcon with h | h
          · exact absurd (List.any_eq_true.mpr h) hp
          · exact absurd h hb

/-- Witness for C9: valid non-garbled input `"abc"` is returned unchanged,
and with both decoders failing the original is returned. -/
theorem C9_witness :
    decodeChineseFilename (gs "abc") true none none = gs "abc" ∧
      decodeChineseFilename (gs "abc") false none none = gs "abc" ∧
      (containsGarbled ([] : List Char) = true ↔
        ((∃ pattern ∈ garbledPatterns, containsSub ([] : List Char) pattern = true) ∨
          (goStrByteLen ([] : List Char) > 10 ∧
            5 * List.countP goIsHan ([] : List Char) >
              4 * List.length ([] : List Char)))) :=
  ⟨(C9_theorem (gs "abc") true none none).2.1 rfl (by decide),
   (C9_theorem (gs "abc") false none none).2.2.1
     (fun d h => by cases h) (fun d h => by cases h),
   (C9_theorem (gs "abc") true none none).2.2.2 ([] : List Char)⟩
